import Mathlib

/-!
Shallow embedding of the osm_batch_downloader backend together with proofs
about the claims of its specification.  Python strings are modelled as lists
of characters, dictionaries as association lists in insertion order, and
rational numbers stand for Python floats.
-/

namespace OsmBatch

/-! ### Character and string helpers (backend/batch_downloader/utils.py) -/

/-- Models the character class stripped by Python str.strip(): ASCII
whitespace, the separator control characters, NEL and NBSP.  Other Unicode
space code points are not produced by any code path modelled here. -/
def isPySpace (c : Char) : Bool :=
  c = ' ' || c = '\t' || c = '\n' || c = '\x0b' || c = '\x0c' || c = '\r' ||
    c = '\x1c' || c = '\x1d' || c = '\x1e' || c = '\x1f' || c = '\x85' || c = '\xa0'

/-- Models Python str.strip() on a character list. -/
def stripWs (l : List Char) : List Char :=
  ((l.dropWhile isPySpace).reverse.dropWhile isPySpace).reverse

/-- The _CYR_MAP dictionary of utils.py: lowercase Cyrillic letter to its
Latin transliteration. -/
def cyrMap : List (Char × List Char) :=
  [('а', ['a']), ('б', ['b']), ('в', ['v']), ('г', ['g']), ('д', ['d']),
   ('е', ['e']), ('ё', ['y', 'o']), ('ж', ['z', 'h']), ('з', ['z']),
   ('и', ['i']), ('й', ['y']), ('к', ['k']), ('л', ['l']), ('м', ['m']),
   ('н', ['n']), ('о', ['o']), ('п', ['p']), ('р', ['r']), ('с', ['s']),
   ('т', ['t']), ('у', ['u']), ('ф', ['f']), ('х', ['h']), ('ц', ['t', 's']),
   ('ч', ['c', 'h']), ('ш', ['s', 'h']), ('щ', ['s', 'c', 'h']), ('ъ', []),
   ('ы', ['y']), ('ь', []), ('э', ['e']), ('ю', ['y', 'u']), ('я', ['y', 'a'])]

/-- Models Python str.lower() on one character, covering the ASCII and
Cyrillic letters that the transliteration table can meet; other characters
are returned unchanged, which agrees with the table lookup failing. -/
def pyCharLower (c : Char) : Char :=
  if 'A' ≤ c ∧ c ≤ 'Z' then Char.ofNat (c.toNat + 32)
  else if 'А' ≤ c ∧ c ≤ 'Я' then Char.ofNat (c.toNat + 32)
  else if c = 'Ё' then 'ё'
  else c

/-- Models Python str.isupper() on one character for the same letter ranges. -/
def pyIsUpper (c : Char) : Bool :=
  ('A' ≤ c && c ≤ 'Z') || ('А' ≤ c && c ≤ 'Я') || c = 'Ё'

/-- Models Python str.upper() on one ASCII character. -/
def asciiUpperChar (c : Char) : Char :=
  if 'a' ≤ c ∧ c ≤ 'z' then Char.ofNat (c.toNat - 32) else c

/-- Embeds the loop body of _translit_ru from utils.py for one character. -/
def translitChar (c : Char) : List Char :=
  match (cyrMap.find? (fun e => e.1 = pyCharLower c)).map (fun e => e.2) with
  | some tr => if pyIsUpper c && !tr.isEmpty then tr.map asciiUpperChar else tr
  | none => [c]

/-- Embeds _translit_ru from utils.py. -/
def translitRu (l : List Char) : List Char := l.flatMap translitChar

/-- Representative ASCII compatibility decompositions used below. -/
def nfkdTable : List (Char × List Char) :=
  [('é', ['e']), ('è', ['e']), ('ê', ['e']), ('á', ['a']), ('à', ['a']),
   ('ä', ['a']), ('ö', ['o']), ('ô', ['o']), ('ü', ['u']), ('ñ', ['n']),
   ('ç', ['c']), ('í', ['i']), ('ó', ['o']), ('ú', ['u'])]

/-- Models NFKD normalization followed by encode("ascii", "ignore") on one
character: ASCII characters are kept, a non-ASCII character contributes the
ASCII part of its compatibility decomposition, defaulting to nothing, which
is what the ignore mode of the codec does. -/
def nfkdAsciiChar (c : Char) : List Char :=
  if c ≤ '\x7f' then [c]
  else
    match (nfkdTable.find? (fun e => e.1 = c)).map (fun e => e.2) with
    | some d => d
    | none => []

/-- Models the NFKD-normalize-then-ASCII-filter step of slugify. -/
def nfkdAsciiIgnore (l : List Char) : List Char := l.flatMap nfkdAsciiChar

/-- Models Python str.lower() on one character of an all-ASCII string. -/
def asciiLowerChar (c : Char) : Char :=
  if 'A' ≤ c ∧ c ≤ 'Z' then Char.ofNat (c.toNat + 32) else c

/-- Character class of the regular expression used by slugify. -/
def isLowerAlnum (c : Char) : Bool := ('a' ≤ c && c ≤ 'z') || ('0' ≤ c && c ≤ '9')

/-- Characters that can appear in a finished slug. -/
def isSlugChar (c : Char) : Bool := isLowerAlnum c || c = '-'

/-- Pointwise part of the first regex substitution of slugify: characters
outside the class become dashes. -/
def dashifyChar (c : Char) : Char := if isLowerAlnum c then c else '-'

/-- Collapses every maximal run of dashes to a single dash.  Composed with
List.map dashifyChar this is the first regex substitution of slugify, and
alone it is the second one, which rewrites runs of two or more dashes. -/
def collapseDashRuns : List Char → List Char
  | [] => []
  | c :: rest =>
    let r := collapseDashRuns rest
    if c = '-' then (if r.head? = some '-' then r else '-' :: r) else c :: r

/-- Models Python str.rstrip("-"). -/
def rstripDash : List Char → List Char
  | [] => []
  | c :: rest =>
    let r := rstripDash rest
    if r = [] ∧ c = '-' then [] else c :: r

/-- Models Python str.strip("-"). -/
def stripDash (l : List Char) : List Char := rstripDash (l.dropWhile (fun c => c = '-'))

/-- Characters of the fallback slug. -/
def unnamedChars : List Char := ['u', 'n', 'n', 'a', 'm', 'e', 'd']

/-- Embeds slugify from utils.py on a character list, with max_len explicit. -/
def slugifyL (maxLen : Nat) (l : List Char) : List Char :=
  let t := stripWs l
  if t = [] then unnamedChars
  else
    let t1 := translitRu t
    let t2 := nfkdAsciiIgnore t1
    let t3 := t2.map asciiLowerChar
    let t4 := stripDash (collapseDashRuns (t3.map dashifyChar))
    let t5 := collapseDashRuns t4
    if t5 = [] then unnamedChars
    else
      let r := rstripDash (t5.take maxLen)
      if r = [] then unnamedChars else r

/-- Embeds slugify with an explicit max_len argument. -/
def slugifyWith (maxLen : Nat) (s : String) : String := ⟨slugifyL maxLen s.data⟩

/-- Embeds slugify from utils.py at its default max_len of 80. -/
def slugify (s : String) : String := slugifyWith 80 s

/-! ### Tag dictionaries and name selection (utils.py, storage.py) -/

/-- Model of a Python value stored in a tag mapping or a feature property. -/
inductive JVal where
  | str : String → JVal
  | num : Int → JVal
  deriving DecidableEq, Repr

/-- Tag mappings are association lists in insertion order with unique keys. -/
abbrev Tags := List (String × JVal)

/-- Models dict.get on an association list: the first matching key wins. -/
def alookup {α : Type} (k : String) (d : List (String × α)) : Option α :=
  (d.find? (fun e => e.1 = k)).map (fun e => e.2)

/-- Models Python str.strip() on a string value. -/
def stripStr (s : String) : String := ⟨stripWs s.data⟩

/-- Key preference order of preferred_english_name_from_tags. -/
def englishNameKeys : List String :=
  ["name:en", "int_name", "official_name:en", "official_name", "name",
   "short_name:en", "short_name"]

/-- Embeds the key loop shared by the preferred-name helpers of utils.py:
the first key whose value is a string with nonempty strip is returned
stripped. -/
def firstStrTag (tags : Tags) : List String → String
  | [] => ""
  | k :: ks =>
    match alookup k tags with
    | some (JVal.str v) => if stripStr v ≠ "" then stripStr v else firstStrTag tags ks
    | _ => firstStrTag tags ks

/-- Embeds preferred_english_name_from_tags from utils.py. -/
def preferred_english_name_from_tags (tags : Tags) : String :=
  firstStrTag tags englishNameKeys

/-- Key preference order of iso2_from_tags. -/
def iso2Keys : List String :=
  ["ISO3166-1:alpha2", "ISO3166-1", "iso3166-1:alpha2", "iso3166-1"]

/-- Models Python str.upper() on an all-ASCII string. -/
def asciiUpper (s : String) : String := ⟨s.data.map asciiUpperChar⟩

/-- ASCII letters, the class accepted by isascii() plus isalpha(). -/
def isAsciiAlpha (c : Char) : Bool := ('A' ≤ c && c ≤ 'Z') || ('a' ≤ c && c ≤ 'z')

/-- Embeds the candidate test of iso2_from_tags: strip, uppercase, then
require exactly two ASCII letters. -/
def iso2Normalize (v : String) : Option String :=
  let vn := asciiUpper (stripStr v)
  if vn.length = 2 && vn.data.all (fun c => c.toNat < 128) && vn.data.all isAsciiAlpha
  then some vn else none

/-- Embeds the key loop of iso2_from_tags. -/
def iso2Go (tags : Tags) : List String → String
  | [] => ""
  | k :: ks =>
    match alookup k tags with
    | some (JVal.str v) =>
      match iso2Normalize v with
      | some r => r
      | none => iso2Go tags ks
    | _ => iso2Go tags ks

/-- Embeds iso2_from_tags from utils.py. -/
def iso2_from_tags (tags : Tags) : String := iso2Go tags iso2Keys

/-- Embeds object_filename from services/storage.py. -/
def object_filename (relation_id : Nat) (tags : Tags) : String :=
  let name :=
    let p := preferred_english_name_from_tags tags
    if p ≠ "" then p else "relation " ++ Nat.repr relation_id
  let iso2 :=
    let i := iso2_from_tags tags
    if i ≠ "" then i else "xx"
  slugify name ++ "__" ++ iso2 ++ "__r" ++ Nat.repr relation_id ++ ".geojson"

/-! ### Pointwise facts about the slugify pipeline -/

/-- Characters that pass through the transliteration, normalization and
lowercase stages unchanged: lowercase ASCII letters, digits, dash, space. -/
def PlainChar (c : Char) : Prop :=
  ('a' ≤ c ∧ c ≤ 'z') ∨ ('0' ≤ c ∧ c ≤ '9') ∨ c = '-' ∨ c = ' '

theorem ne_of_between {c lo hi x : Char} (h1 : lo ≤ c) (h2 : c ≤ hi)
    (hx : x < lo ∨ hi < x) : c ≠ x := by
  rintro rfl
  rcases hx with hx | hx
  · exact absurd h1 (not_le.mpr hx)
  · exact absurd h2 (not_le.mpr hx)

theorem plainChar_ne {c x : Char} (hc : PlainChar c)
    (h1 : x < 'a' ∨ 'z' < x) (h2 : x < '0' ∨ '9' < x) (h3 : x ≠ '-') (h4 : x ≠ ' ') :
    c ≠ x := by
  rcases hc with ⟨ha, hb⟩ | ⟨ha, hb⟩ | rfl | rfl
  · exact ne_of_between ha hb h1
  · exact ne_of_between ha hb h2
  · exact fun he => h3 he.symm
  · exact fun he => h4 he.symm

theorem plainChar_le {c : Char} (hc : PlainChar c) : c ≤ 'z' := by
  rcases hc with ⟨_, hb⟩ | ⟨_, hb⟩ | rfl | rfl
  · exact hb
  · exact le_trans hb (by decide)
  · decide
  · decide

theorem plainChar_not_ascii_upper {c : Char} (hc : PlainChar c) :
    ¬('A' ≤ c ∧ c ≤ 'Z') := by
  rintro ⟨ha, hb⟩
  rcases hc with ⟨h1, _⟩ | ⟨_, h2⟩ | rfl | rfl
  · exact absurd (le_trans h1 hb) (by decide)
  · exact absurd (le_trans ha h2) (by decide)
  · exact absurd ha (by decide)
  · exact absurd ha (by decide)

theorem isPySpace_plain {c : Char} (hc : PlainChar c) :
    isPySpace c = decide (c = ' ') := by
  have n1 := plainChar_ne hc (by decide) (by decide) (by decide) (by decide) (x := '\t')
  have n2 := plainChar_ne hc (by decide) (by decide) (by decide) (by decide) (x := '\n')
  have n3 := plainChar_ne hc (by decide) (by decide) (by decide) (by decide) (x := '\x0b')
  have n4 := plainChar_ne hc (by decide) (by decide) (by decide) (by decide) (x := '\x0c')
  have n5 := plainChar_ne hc (by decide) (by decide) (by decide) (by decide) (x := '\r')
  have n6 := plainChar_ne hc (by decide) (by decide) (by decide) (by decide) (x := '\x1c')
  have n7 := plainChar_ne hc (by decide) (by decide) (by decide) (by decide) (x := '\x1d')
  have n8 := plainChar_ne hc (by decide) (by decide) (by decide) (by decide) (x := '\x1e')
  have n9 := plainChar_ne hc (by decide) (by decide) (by decide) (by decide) (x := '\x1f')
  have n10 := plainChar_ne hc (by decide) (by decide) (by decide) (by decide) (x := '\x85')
  have n11 := plainChar_ne hc (by decide) (by decide) (by decide) (by decide) (x := '\xa0')
  simp [isPySpace, n1, n2, n3, n4, n5, n6, n7, n8, n9, n10, n11]

theorem pyCharLower_plain {c : Char} (hc : PlainChar c) : pyCharLower c = c := by
  have h1 := plainChar_not_ascii_upper hc
  have h2 : ¬('А' ≤ c ∧ c ≤ 'Я') := by
    rintro ⟨ha, _⟩
    exact absurd (le_trans ha (plainChar_le hc)) (by decide)
  have h3 : c ≠ 'Ё' := plainChar_ne hc (by decide) (by decide) (by decide) (by decide)
  simp [pyCharLower, h1, h2, h3]

theorem cyrMap_find_plain {c : Char} (hc : PlainChar c) :
    cyrMap.find? (fun e => e.1 = pyCharLower c) = none := by
  rw [pyCharLower_plain hc]
  rw [List.find?_eq_none]
  intro e he
  have hkey : 'а' ≤ e.1 := by
    have : ∀ p ∈ cyrMap, 'а' ≤ p.1 := by decide
    exact this e he
  have hcz : c < 'а' := lt_of_le_of_lt (plainChar_le hc) (by decide)
  simp only [decide_eq_true_eq]
  intro hec
  rw [hec] at hkey
  exact absurd hkey (not_le.mpr hcz)

theorem translitChar_plain {c : Char} (hc : PlainChar c) : translitChar c = [c] := by
  simp [translitChar, cyrMap_find_plain hc]

theorem nfkdAsciiChar_plain {c : Char} (hc : PlainChar c) : nfkdAsciiChar c = [c] := by
  have : c ≤ '\x7f' := le_trans (plainChar_le hc) (by decide)
  simp [nfkdAsciiChar, this]

theorem asciiLowerChar_plain {c : Char} (hc : PlainChar c) : asciiLowerChar c = c := by
  simp [asciiLowerChar, plainChar_not_ascii_upper hc]

theorem plainChar_of_slug {c : Char} (h : isSlugChar c = true) : PlainChar c := by
  simp only [isSlugChar, isLowerAlnum, Bool.or_eq_true, Bool.and_eq_true,
    decide_eq_true_eq] at h
  rcases h with (⟨h1, h2⟩ | ⟨h1, h2⟩) | h1
  · exact Or.inl ⟨h1, h2⟩
  · exact Or.inr (Or.inl ⟨h1, h2⟩)
  · exact Or.inr (Or.inr (Or.inl h1))

theorem isSlugChar_dashify (c : Char) : isSlugChar (dashifyChar c) = true := by
  by_cases h : isLowerAlnum c = true
  · simp [dashifyChar, h, isSlugChar]
  · simp only [dashifyChar, Bool.not_eq_true] at h ⊢
    rw [if_neg (by simp [h])]
    decide

theorem dashifyChar_slug {c : Char} (h : isSlugChar c = true) : dashifyChar c = c := by
  simp only [isSlugChar, Bool.or_eq_true, decide_eq_true_eq] at h
  rcases h with h | rfl
  · simp [dashifyChar, h]
  · rfl

/-! ### Structural facts about dash collapsing and stripping -/

/-- Adjacent characters are never both dashes. -/
def NoDD (l : List Char) : Prop :=
  List.Chain' (fun a b => ¬(a = '-' ∧ b = '-')) l

theorem noDD_of_no_dash {l : List Char} (h : ∀ c ∈ l, c ≠ '-') : NoDD l := by
  induction l with
  | nil => exact List.chain'_nil
  | cons a t ih =>
    refine List.chain'_cons'.mpr ⟨?_, ih fun c hc => h c (List.mem_cons_of_mem a hc)⟩
    intro y _ hy
    exact h a (List.mem_cons_self a t) hy.1

theorem collapseDashRuns_cons (c : Char) (rest : List Char) :
    collapseDashRuns (c :: rest) =
      if c = '-' then
        (if (collapseDashRuns rest).head? = some '-' then collapseDashRuns rest
         else '-' :: collapseDashRuns rest)
      else c :: collapseDashRuns rest := rfl

theorem mem_collapseDashRuns {l : List Char} {c : Char}
    (h : c ∈ collapseDashRuns l) : c ∈ l ∨ c = '-' := by
  induction l with
  | nil =>
    rw [show collapseDashRuns [] = [] from rfl] at h
    exact absurd h (List.not_mem_nil c)
  | cons a t ih =>
    rw [collapseDashRuns_cons] at h
    by_cases ha : a = '-'
    · rw [if_pos ha] at h
      by_cases hh : (collapseDashRuns t).head? = some '-'
      · rw [if_pos hh] at h
        rcases ih h with h1 | h1
        · exact Or.inl (List.mem_cons_of_mem a h1)
        · exact Or.inr h1
      · rw [if_neg hh] at h
        rcases List.mem_cons.mp h with rfl | h1
        · exact Or.inr rfl
        · rcases ih h1 with h2 | h2
          · exact Or.inl (List.mem_cons_of_mem a h2)
          · exact Or.inr h2
    · rw [if_neg ha] at h
      rcases List.mem_cons.mp h with rfl | h1
      · exact Or.inl (List.mem_cons_self c t)
      · rcases ih h1 with h2 | h2
        · exact Or.inl (List.mem_cons_of_mem a h2)
        · exact Or.inr h2

theorem collapseDashRuns_head {a : Char} (t : List Char) (ha : a ≠ '-') :
    (collapseDashRuns (a :: t)).head? = some a := by
  rw [collapseDashRuns_cons, if_neg ha]
  rfl

theorem collapseDashRuns_noDD (l : List Char) : NoDD (collapseDashRuns l) := by
  induction l with
  | nil => exact List.chain'_nil
  | cons a t ih =>
    rw [collapseDashRuns_cons]
    by_cases ha : a = '-'
    · rw [if_pos ha]
      by_cases hh : (collapseDashRuns t).head? = some '-'
      · rw [if_pos hh]; exact ih
      · rw [if_neg hh]
        refine List.chain'_cons'.mpr ⟨?_, ih⟩
        intro y hy hcon
        exact hh (by rw [hy, hcon.2])
    · rw [if_neg ha]
      refine List.chain'_cons'.mpr ⟨?_, ih⟩
      intro y _ hcon
      exact ha hcon.1

theorem collapseDashRuns_eq_self {l : List Char} (h : NoDD l) :
    collapseDashRuns l = l := by
  induction l with
  | nil => rfl
  | cons a t ih =>
    have ht : NoDD t := (List.chain'_cons'.mp h).2
    rw [collapseDashRuns_cons, ih ht]
    by_cases ha : a = '-'
    · subst ha
      have hh : t.head? ≠ some '-' := by
        intro hcon
        cases t with
        | nil => exact Option.noConfusion hcon
        | cons b t2 =>
          have hb : b = '-' := Option.some.inj hcon
          exact (List.chain'_cons.mp h).1 ⟨rfl, hb⟩
      rw [if_pos rfl, if_neg hh]
    · rw [if_neg ha]

theorem rstripDash_cons (c : Char) (rest : List Char) :
    rstripDash (c :: rest) =
      if rstripDash rest = [] ∧ c = '-' then [] else c :: rstripDash rest := rfl

theorem rstripDash_pre (l : List Char) : rstripDash l <+: l := by
  induction l with
  | nil => exact List.prefix_refl []
  | cons c rest ih =>
    rw [rstripDash_cons]
    by_cases h : rstripDash rest = [] ∧ c = '-'
    · rw [if_pos h]; exact List.nil_prefix
    · rw [if_neg h]
      exact List.cons_prefix_cons.mpr ⟨rfl, ih⟩

theorem rstripDash_getLast (l : List Char) : (rstripDash l).getLast? ≠ some '-' := by
  induction l with
  | nil => simp [rstripDash]
  | cons c rest ih =>
    rw [rstripDash_cons]
    by_cases h : rstripDash rest = [] ∧ c = '-'
    · rw [if_pos h]; simp
    · rw [if_neg h]
      cases he : rstripDash rest with
      | nil =>
        have hc : c ≠ '-' := fun hcc => h ⟨he, hcc⟩
        simp [he, hc]
      | cons b t =>
        rw [List.getLast?_cons_cons]
        rw [he] at ih
        exact ih

theorem rstripDash_eq_self {l : List Char} (h : l.getLast? ≠ some '-') :
    rstripDash l = l := by
  induction l with
  | nil => rfl
  | cons c rest ih =>
    rw [rstripDash_cons]
    cases rest with
    | nil =>
      have hc : c ≠ '-' := by
        intro hcc
        exact h (by simp [hcc])
      rw [if_neg (fun hx => hc hx.2)]
      rfl
    | cons b t =>
      have hr : rstripDash (b :: t) = b :: t := ih (by rwa [List.getLast?_cons_cons] at h)
      rw [hr, if_neg (fun hx => List.cons_ne_nil b t hx.1)]

theorem rstripDash_head {l : List Char} (h : rstripDash l ≠ []) :
    (rstripDash l).head? = l.head? := by
  cases l with
  | nil => rfl
  | cons c rest =>
    by_cases hc : rstripDash rest = [] ∧ c = '-'
    · rw [rstripDash_cons, if_pos hc] at h
      exact absurd rfl h
    · rw [rstripDash_cons, if_neg hc]
      rfl

theorem stripDash_head (l : List Char) : (stripDash l).head? ≠ some '-' := by
  unfold stripDash
  by_cases h : rstripDash (l.dropWhile fun c => c = '-') = []
  · rw [h]; simp
  · rw [rstripDash_head h]
    intro hcon
    have := List.head?_dropWhile_not (fun c => decide (c = '-')) l
    rw [hcon] at this
    simp at this

theorem stripDash_sublist (l : List Char) : ∀ c ∈ stripDash l, c ∈ l := by
  intro c hc
  unfold stripDash at hc
  have h1 := (rstripDash_pre (l.dropWhile fun c => c = '-')).sublist.mem hc
  exact (List.dropWhile_sublist _).mem h1

theorem stripDash_noDD {l : List Char} (h : NoDD l) : NoDD (stripDash l) := by
  unfold stripDash
  exact List.Chain'.prefix (List.Chain'.suffix h (List.dropWhile_suffix _)) (rstripDash_pre _)

theorem stripDash_getLast (l : List Char) : (stripDash l).getLast? ≠ some '-' :=
  rstripDash_getLast _

theorem stripDash_eq_self {l : List Char} (h1 : l.head? ≠ some '-')
    (h2 : l.getLast? ≠ some '-') : stripDash l = l := by
  unfold stripDash
  have hdrop : l.dropWhile (fun c => c = '-') = l := by
    cases l with
    | nil => rfl
    | cons c rest =>
      have hc : c ≠ '-' := fun hcc => h1 (by simp [hcc])
      rw [List.dropWhile_cons_of_neg (by simpa using hc)]
  rw [hdrop]
  exact rstripDash_eq_self h2

/-! ### Identity lemmas for the early pipeline stages -/

theorem dropWhile_eq_self_of_head {p : Char → Bool} {l : List Char}
    (h : ∀ c, l.head? = some c → p c = false) : l.dropWhile p = l := by
  cases l with
  | nil => rfl
  | cons a t =>
    rw [List.dropWhile_cons_of_neg]
    rw [h a rfl]
    exact Bool.false_ne_true

theorem stripWs_eq_self {l : List Char}
    (h1 : ∀ c, l.head? = some c → isPySpace c = false)
    (h2 : ∀ c, l.getLast? = some c → isPySpace c = false) : stripWs l = l := by
  unfold stripWs
  rw [dropWhile_eq_self_of_head h1]
  rw [dropWhile_eq_self_of_head (fun c hc => h2 c (by rwa [List.head?_reverse] at hc))]
  exact List.reverse_reverse l

theorem flatMap_id_of {f : Char → List Char} {l : List Char}
    (h : ∀ c ∈ l, f c = [c]) : l.flatMap f = l := by
  induction l with
  | nil => rfl
  | cons a t ih =>
    rw [List.flatMap_cons, h a (List.mem_cons_self a t),
      ih fun c hc => h c (List.mem_cons_of_mem a hc)]
    rfl

theorem map_id_of {f : Char → Char} {l : List Char}
    (h : ∀ c ∈ l, f c = c) : l.map f = l := by
  induction l with
  | nil => rfl
  | cons a t ih =>
    rw [List.map_cons, h a (List.mem_cons_self a t),
      ih fun c hc => h c (List.mem_cons_of_mem a hc)]

theorem head?_take_pos {l : List Char} {n : Nat} (hn : 0 < n) :
    (l.take n).head? = l.head? := by
  cases l with
  | nil => simp
  | cons a t =>
    cases n with
    | zero => exact absurd hn (lt_irrefl 0)
    | succ m => rw [List.take_succ_cons]; rfl

/-! ### The shape of a finished slug -/

/-- Everything slugify guarantees about its output at max_len 80: nonempty,
at most 80 characters, only lowercase alphanumerics and dashes, no dash at
either end, no two adjacent dashes. -/
def GoodSlug (l : List Char) : Prop :=
  l ≠ [] ∧ l.length ≤ 80 ∧ (∀ c ∈ l, isSlugChar c = true) ∧
    l.head? ≠ some '-' ∧ l.getLast? ≠ some '-' ∧ NoDD l

theorem goodSlug_unnamed : GoodSlug unnamedChars := by
  refine ⟨by decide, by decide, by decide, by decide, by decide, ?_⟩
  exact noDD_of_no_dash (by decide)

theorem goodSlug_construction (t3 : List Char)
    (hr : rstripDash ((collapseDashRuns (stripDash (collapseDashRuns
      (t3.map dashifyChar)))).take 80) ≠ []) :
    GoodSlug (rstripDash ((collapseDashRuns (stripDash (collapseDashRuns
      (t3.map dashifyChar)))).take 80)) := by
  set u := collapseDashRuns (t3.map dashifyChar) with hu
  set t4 := stripDash u with ht4
  set t5 := collapseDashRuns t4 with ht5
  set tk := t5.take 80 with htk
  set r := rstripDash tk with hrdef
  have hchars : ∀ c ∈ r, isSlugChar c = true := by
    intro c hc
    have hc1 : c ∈ tk := (rstripDash_pre tk).sublist.mem hc
    have hc2 : c ∈ t5 := ( List.take_prefix 80 t5).sublist.mem hc1
    rcases mem_collapseDashRuns hc2 with hc3 | hc3
    · have hc4 : c ∈ u := stripDash_sublist u c hc3
      rcases mem_collapseDashRuns hc4 with hc5 | hc5
      · rcases List.mem_map.mp hc5 with ⟨d, _, hd⟩
        rw [← hd]
        exact isSlugChar_dashify d
      · rw [hc5]; decide
    · rw [hc3]; decide
  have hnodd : NoDD r :=
    List.Chain'.prefix ( List.Chain'.prefix (collapseDashRuns_noDD t4)
      ( List.take_prefix 80 t5)) (rstripDash_pre tk)
  have htkne : tk ≠ [] := by
    intro hk
    rw [hrdef, hk] at hr
    exact hr rfl
  have ht4ne : t4 ≠ [] := by
    intro h4
    rw [htk, ht5, h4] at htkne
    exact htkne rfl
  have hhead : r.head? ≠ some '-' := by
    rw [hrdef, rstripDash_head (by rwa [← hrdef]), htk, head?_take_pos (by norm_num)]
    cases he : t4 with
    | nil => exact absurd he ht4ne
    | cons a t =>
      have ha : a ≠ '-' := by
        intro haa
        apply stripDash_head u
        rw [← ht4, he, haa]
        rfl
      rw [ht5, he, collapseDashRuns_head t ha]
      simp [ha]
  refine ⟨hr, ?_, hchars, hhead, rstripDash_getLast tk, hnodd⟩
  calc r.length ≤ tk.length := (rstripDash_pre tk).length_le
    _ ≤ 80 := by rw [htk]; exact List.length_take_le 80 t5

theorem slugifyL_good (l : List Char) : GoodSlug (slugifyL 80 l) := by
  simp only [slugifyL]
  split
  · exact goodSlug_unnamed
  · split
    · exact goodSlug_unnamed
    · split
      · exact goodSlug_unnamed
      · next h5 hr => exact goodSlug_construction _ hr

theorem slugChar_ne_space {c : Char} (h : isSlugChar c = true) : c ≠ ' ' := by
  intro hc
  rw [hc] at h
  exact absurd h (by decide)

theorem slugifyL_eq_self_of_good {l : List Char} (h : GoodSlug l) :
    slugifyL 80 l = l := by
  obtain ⟨hne, hlen, hchars, hhead, hlast, hnodd⟩ := h
  have hplain : ∀ c ∈ l, PlainChar c := fun c hc => plainChar_of_slug (hchars c hc)
  have hnospace : ∀ c ∈ l, isPySpace c = false := by
    intro c hc
    rw [isPySpace_plain (hplain c hc)]
    simp [slugChar_ne_space (hchars c hc)]
  have h1 : stripWs l = l :=
    stripWs_eq_self
      (fun c hc => hnospace c (List.mem_of_mem_head? hc))
      (fun c hc => hnospace c (List.mem_of_getLast?_eq_some hc))
  have h2 : translitRu l = l :=
    flatMap_id_of fun c hc => translitChar_plain (hplain c hc)
  have h3 : nfkdAsciiIgnore l = l :=
    flatMap_id_of fun c hc => nfkdAsciiChar_plain (hplain c hc)
  have h4 : l.map asciiLowerChar = l :=
    map_id_of fun c hc => asciiLowerChar_plain (hplain c hc)
  have h5 : l.map dashifyChar = l :=
    map_id_of fun c hc => dashifyChar_slug (hchars c hc)
  have h6 : collapseDashRuns l = l := collapseDashRuns_eq_self hnodd
  have h7 : stripDash l = l := stripDash_eq_self hhead hlast
  have h8 : l.take 80 = l := List.take_of_length_le hlen
  have h9 : rstripDash l = l := rstripDash_eq_self hlast
  simp only [slugifyL, h1, h2, h3, h4, h5, h6, h7, h8, h9]
  rw [if_neg hne, if_neg hne, if_neg hne]

/-- C8: slugify is idempotent: for every input string x,
slugify (slugify x) = slugify x, including inputs that are empty, contain
Cyrillic or non-ASCII characters, or exceed the 80-character truncation
limit. -/
theorem c8_slugify_idempotent : ∀ x : String, slugify (slugify x) = slugify x := by
  intro x
  show (⟨slugifyL 80 (slugifyL 80 x.data)⟩ : String) = ⟨slugifyL 80 x.data⟩
  rw [slugifyL_eq_self_of_good (slugifyL_good x.data)]

/-! ### Decimal digits of Nat.repr -/

theorem digitChar_digit : ∀ k : Nat, k < 10 →
    '0' ≤ Nat.digitChar k ∧ Nat.digitChar k ≤ '9' := by decide

theorem toDigitsCore_digits : ∀ (f n : Nat) (l : List Char),
    (∀ c ∈ l, '0' ≤ c ∧ c ≤ '9') →
    ∀ c ∈ Nat.toDigitsCore 10 f n l, '0' ≤ c ∧ c ≤ '9' := by
  intro f
  induction f with
  | zero =>
    intro n l hl c hc
    exact hl c (by simpa [Nat.toDigitsCore] using hc)
  | succ f ih =>
    intro n l hl c hc
    simp only [Nat.toDigitsCore] at hc
    have hmem : ∀ c ∈ Nat.digitChar (n % 10) :: l, '0' ≤ c ∧ c ≤ '9' := by
      intro d hd
      rcases List.mem_cons.mp hd with rfl | hd
      · exact digitChar_digit _ (Nat.mod_lt n (by norm_num))
      · exact hl d hd
    split at hc
    · exact hmem c hc
    · exact ih (n / 10) _ hmem c hc

theorem toDigitsCore_length_ge : ∀ (f n : Nat) (l : List Char),
    l.length ≤ (Nat.toDigitsCore 10 f n l).length := by
  intro f
  induction f with
  | zero => intro n l; simp [Nat.toDigitsCore]
  | succ f ih =>
    intro n l
    simp only [Nat.toDigitsCore]
    split
    · simp
    · calc l.length ≤ (Nat.digitChar (n % 10) :: l).length := by simp
        _ ≤ _ := ih (n / 10) _

theorem repr_data_eq (n : Nat) :
    (Nat.repr n).data = Nat.toDigitsCore 10 (n + 1) n [] := rfl

theorem repr_data_digits (n : Nat) :
    ∀ c ∈ (Nat.repr n).data, '0' ≤ c ∧ c ≤ '9' := by
  rw [repr_data_eq]
  exact toDigitsCore_digits (n + 1) n [] (by simp)

theorem repr_data_ne_nil (n : Nat) : (Nat.repr n).data ≠ [] := by
  rw [repr_data_eq]
  simp only [Nat.toDigitsCore]
  split
  · exact List.cons_ne_nil _ _
  · have := toDigitsCore_length_ge n (n / 10) [Nat.digitChar (n % 10)]
    intro hcon
    rw [hcon] at this
    simp at this

theorem repr_data_length_le {n : Nat} (h : n < 10 ^ 71) :
    (Nat.repr n).data.length ≤ 71 :=
  Nat.repr_length n 71 (by norm_num) h

theorem digit_slugChar {c : Char} (h1 : '0' ≤ c) (h2 : c ≤ '9') :
    isSlugChar c = true := by
  simp only [isSlugChar, isLowerAlnum, Bool.or_eq_true, Bool.and_eq_true,
    decide_eq_true_eq]
  exact Or.inl (Or.inr ⟨h1, h2⟩)

theorem digit_ne_dash {c : Char} (h1 : '0' ≤ c) (h2 : c ≤ '9') : c ≠ '-' :=
  ne_of_between h1 h2 (Or.inl (by decide))

/-! ### slugify of the fallback name of an unnamed relation -/

instance (c : Char) : Decidable (PlainChar c) := by
  unfold PlainChar
  infer_instance

theorem string_ext {s t : String} (h : s.data = t.data) : s = t := by
  cases s
  cases t
  exact congrArg String.mk h

theorem slugify_relation_name (rid : Nat) (h : rid < 10 ^ 71) :
    slugify ("relation " ++ Nat.repr rid) = "relation-" ++ Nat.repr rid := by
  have hD := repr_data_digits rid
  set D := (Nat.repr rid).data with hDdef
  have hDne : D ≠ [] := repr_data_ne_nil rid
  have hDlen : D.length ≤ 71 := repr_data_length_le h
  have hDplain : ∀ c ∈ D, PlainChar c := fun c hc =>
    plainChar_of_slug (digit_slugChar (hD c hc).1 (hD c hc).2)
  have hL : ("relation " ++ Nat.repr rid).data = "relation ".data ++ D := by
    rw [String.data_append]
  have hLplain : ∀ c ∈ "relation ".data ++ D, PlainChar c := by
    intro c hc
    rcases List.mem_append.mp hc with hc | hc
    · have hrel : ∀ c ∈ "relation ".data, PlainChar c := by decide
      exact hrel c hc
    · exact hDplain c hc
  have h1 : stripWs ("relation ".data ++ D) = "relation ".data ++ D := by
    refine stripWs_eq_self (fun c hc => ?_) (fun c hc => ?_)
    · have hcr : c = 'r' := Option.some.inj (by rw [← hc]; rfl)
      rw [hcr]; decide
    · have hcD : c ∈ D := by
        rw [List.getLast?_append_of_ne_nil _ hDne] at hc
        exact List.mem_of_getLast?_eq_some hc
      rw [isPySpace_plain (hDplain c hcD)]
      simp only [decide_eq_false_iff_not]
      exact ne_of_between (hD c hcD).1 (hD c hcD).2 (Or.inl (by decide))
  have h2 : translitRu ("relation ".data ++ D) = "relation ".data ++ D :=
    flatMap_id_of fun c hc => translitChar_plain (hLplain c hc)
  have h3 : nfkdAsciiIgnore ("relation ".data ++ D) = "relation ".data ++ D :=
    flatMap_id_of fun c hc => nfkdAsciiChar_plain (hLplain c hc)
  have h4 : ("relation ".data ++ D).map asciiLowerChar = "relation ".data ++ D :=
    map_id_of fun c hc => asciiLowerChar_plain (hLplain c hc)
  have h5 : ("relation ".data ++ D).map dashifyChar = "relation-".data ++ D := by
    rw [List.map_append]
    have hmapD : D.map dashifyChar = D :=
      map_id_of fun c hc => dashifyChar_slug (digit_slugChar (hD c hc).1 (hD c hc).2)
    rw [hmapD, show ("relation ".data).map dashifyChar = "relation-".data by decide]
  have hMne : "relation-".data ++ D ≠ [] := by simp
  have hMlast : ("relation-".data ++ D).getLast? ≠ some '-' := by
    rw [List.getLast?_append_of_ne_nil _ hDne]
    intro hcon
    have hcD := List.mem_of_getLast?_eq_some hcon
    exact digit_ne_dash (hD '-' hcD).1 (hD '-' hcD).2 rfl
  have hMnodd : NoDD ("relation-".data ++ D) := by
    rw [show ("relation-".data ++ D : List Char) = "relation".data ++ '-' :: D from rfl]
    rw [NoDD, List.chain'_append]
    refine ⟨noDD_of_no_dash (by decide), ?_, ?_⟩
    · refine List.chain'_cons'.mpr
        ⟨?_, noDD_of_no_dash fun c hc => digit_ne_dash (hD c hc).1 (hD c hc).2⟩
      intro y hy hcon
      exact digit_ne_dash (hD y (List.mem_of_mem_head? hy)).1
        (hD y (List.mem_of_mem_head? hy)).2 hcon.2
    · intro x hx y _ hcon
      have hxn : x = 'n' := by
        have hlast : ("relation".data).getLast? = some 'n' := by decide
        rw [hlast] at hx
        exact (Option.some.inj hx).symm
      rw [hxn] at hcon
      exact absurd hcon.1 (by decide)
  have h6 : collapseDashRuns ("relation-".data ++ D) = "relation-".data ++ D :=
    collapseDashRuns_eq_self hMnodd
  have h7 : stripDash ("relation-".data ++ D) = "relation-".data ++ D :=
    stripDash_eq_self (by rw [show ("relation-".data ++ D).head? = some 'r' from rfl]; decide)
      hMlast
  have h8 : ("relation-".data ++ D).take 80 = "relation-".data ++ D := by
    apply List.take_of_length_le
    rw [List.length_append]
    have h9len : ("relation-".data).length = 9 := by decide
    omega
  have h9 : rstripDash ("relation-".data ++ D) = "relation-".data ++ D :=
    rstripDash_eq_self hMlast
  have hLne : ("relation ".data ++ D : List Char) ≠ [] := by simp
  apply string_ext
  show slugifyL 80 ("relation " ++ Nat.repr rid).data = ("relation-" ++ Nat.repr rid).data
  rw [hL, String.data_append, ← hDdef]
  simp only [slugifyL, h1, h2, h3, h4, h5, h6, h7, h8, h9]
  rw [if_neg hLne, if_neg hMne, if_neg hMne]

/-- C3 counterexample: a tag set with no preferred English name does not
produce the filename unnamed__xx__r5.geojson; the code falls back to the
name "relation 5" and produces relation-5__xx__r5.geojson. -/
theorem c3_unnamed_counterexample :
    object_filename 5 [] = "relation-5__xx__r5.geojson" ∧
      object_filename 5 [] ≠ "unnamed__xx__r5.geojson" := by
  constructor
  · decide
  · decide

/-- C3 (amended): the per-object file is named
slugify(name)__iso2__r(rid).geojson where name is the preferred English
name when one exists and the fallback "relation (rid)" otherwise, and iso2
falls back to "xx"; in particular a tag set yielding no preferred English
name and no ISO code produces relation-(rid)__xx__r(rid).geojson, not
unnamed__xx__r(rid).geojson. -/
theorem c3_object_filename_fallback (rid : Nat) (tags : Tags)
    (hrid : rid < 10 ^ 71) :
    (preferred_english_name_from_tags tags ≠ "" → iso2_from_tags tags ≠ "" →
      object_filename rid tags =
        slugify (preferred_english_name_from_tags tags) ++ "__" ++
          iso2_from_tags tags ++ "__r" ++ Nat.repr rid ++ ".geojson") ∧
    (preferred_english_name_from_tags tags = "" → iso2_from_tags tags = "" →
      object_filename rid tags =
        "relation-" ++ Nat.repr rid ++ "__xx__r" ++ Nat.repr rid ++ ".geojson") := by
  constructor
  · intro hname hiso
    unfold object_filename
    rw [if_pos hname, if_pos hiso]
  · intro hname hiso
    unfold object_filename
    rw [hname, hiso]
    rw [if_neg (by simp), if_neg (by simp)]
    show slugify ("relation " ++ Nat.repr rid) ++ "__" ++ "xx" ++ "__r" ++
      Nat.repr rid ++ ".geojson" = _
    rw [slugify_relation_name rid hrid]
    apply string_ext
    simp [String.data_append]

/-- Witness for C3: the empty tag set at relation id 5. -/
theorem c3_object_filename_fallback_witness :
    object_filename 5 [] =
      "relation-" ++ Nat.repr 5 ++ "__xx__r" ++ Nat.repr 5 ++ ".geojson" :=
  (c3_object_filename_fallback 5 [] (by norm_num)).2 (by decide) (by decide)

/-! ### Feature properties written by write_object_geojson (storage.py) -/

/-- Models the Python dict literal update d[k] = v: the value of an existing
key is replaced in place, a new key is appended at the end. -/
def dictSet {α : Type} (d : List (String × α)) (k : String) (v : α) :
    List (String × α) :=
  if d.any (fun e => e.1 = k) then
    d.map (fun e => if e.1 = k then (k, v) else e)
  else d ++ [(k, v)]

/-- Embeds the properties dict built by write_object_geojson: the input tags
spread first, then the reserved keys osm_type and osm_id. -/
def objectFeatureProperties (relation_id : Nat) (tags : Tags) : Tags :=
  dictSet (dictSet tags "osm_type" (JVal.str "relation")) "osm_id"
    (JVal.num relation_id)

/-- A GeoJSON feature with abstract geometry payload. -/
structure GeoFeature (γ : Type) where
  ftype : String
  geometry : γ
  properties : Tags

/-- A GeoJSON feature collection with abstract geometry payload. -/
structure FeatureColl (γ : Type) where
  fctype : String
  features : List (GeoFeature γ)

/-- Embeds the FeatureCollection value written by write_object_geojson. -/
def write_object_geojson_fc {γ : Type} (relation_id : Nat) (tags : Tags)
    (geometry : γ) : FeatureColl γ :=
  { fctype := "FeatureCollection",
    features := [{ ftype := "Feature", geometry := geometry,
                   properties := objectFeatureProperties relation_id tags }] }

theorem alookup_cons {α : Type} (e : String × α) (t : List (String × α)) (k : String) :
    alookup k (e :: t) = if e.1 = k then some e.2 else alookup k t := by
  by_cases he : e.1 = k
  · simp [alookup, List.find?_cons, he]
  · simp [alookup, List.find?_cons, he]

theorem alookup_map_dictSet {α : Type} {k k' : String} (v : α) (h : k' ≠ k)
    (t : List (String × α)) :
    alookup k' (t.map fun e => if e.1 = k then (k, v) else e) = alookup k' t := by
  induction t with
  | nil => rfl
  | cons e t ih =>
    rw [List.map_cons, alookup_cons, alookup_cons]
    by_cases he : e.1 = k
    · rw [if_pos he]
      have h1 : ((k, v) : String × α).1 ≠ k' := fun hx => h hx.symm
      have h2 : e.1 ≠ k' := by rw [he]; exact fun hx => h hx.symm
      rw [if_neg h1, if_neg h2, ih]
    · rw [if_neg he]
      by_cases hek : e.1 = k'
      · rw [if_pos hek, if_pos hek]
      · rw [if_neg hek, if_neg hek, ih]

theorem alookup_append_single {α : Type} {k k' : String} (v : α) (h : k' ≠ k)
    (d : List (String × α)) :
    alookup k' (d ++ [(k, v)]) = alookup k' d := by
  induction d with
  | nil =>
    show alookup k' ((k, v) :: []) = alookup k' ([] : List (String × α))
    rw [alookup_cons, if_neg (fun hx => h hx.symm)]
  | cons e t ih =>
    rw [List.cons_append, alookup_cons, alookup_cons, ih]

theorem alookup_dictSet_ne {α : Type} (d : List (String × α)) {k k' : String}
    (v : α) (h : k' ≠ k) :
    alookup k' (dictSet d k v) = alookup k' d := by
  unfold dictSet
  split
  · exact alookup_map_dictSet v h d
  · exact alookup_append_single v h d

theorem alookup_append_single_absent {α : Type} {k : String} (v : α)
    (d : List (String × α))
    (h : ∀ e ∈ d, e.1 ≠ k) : alookup k (d ++ [(k, v)]) = some v := by
  induction d with
  | nil =>
    show alookup k ((k, v) :: []) = some v
    rw [alookup_cons, if_pos rfl]
  | cons e t ih =>
    rw [List.cons_append, alookup_cons, if_neg (h e (List.mem_cons_self e t))]
    exact ih fun x hx => h x (List.mem_cons_of_mem e hx)

theorem alookup_map_dictSet_self {α : Type} {k : String} (v : α)
    (t : List (String × α))
    (h : t.any (fun e => e.1 = k) = true) :
    alookup k (t.map fun e => if e.1 = k then (k, v) else e) = some v := by
  induction t with
  | nil => exact absurd h (by simp)
  | cons e t ih =>
    rw [List.map_cons]
    by_cases he : e.1 = k
    · rw [if_pos he, alookup_cons, if_pos rfl]
    · rw [if_neg he, alookup_cons, if_neg he]
      refine ih ?_
      simpa [List.any_cons, he] using h

theorem alookup_dictSet_self {α : Type} (d : List (String × α)) (k : String)
    (v : α) :
    alookup k (dictSet d k v) = some v := by
  unfold dictSet
  by_cases hany : d.any (fun e => e.1 = k) = true
  · rw [if_pos hany]
    exact alookup_map_dictSet_self v d hany
  · rw [if_neg hany]
    refine alookup_append_single_absent v d ?_
    intro e he hek
    apply hany
    rw [List.any_eq_true]
    exact ⟨e, he, by simpa using hek⟩

/-- C9: the single feature written by write_object_geojson has properties in
which osm_type is "relation" and osm_id is the relation id, overriding
colliding tag keys, while every other tag key keeps its value. -/
theorem c9_reserved_properties_override {γ : Type} (relation_id : Nat)
    (tags : Tags) (geometry : γ) :
    (write_object_geojson_fc relation_id tags geometry).features =
      [{ ftype := "Feature", geometry := geometry,
         properties := objectFeatureProperties relation_id tags }] ∧
    alookup "osm_type" (objectFeatureProperties relation_id tags) =
      some (JVal.str "relation") ∧
    alookup "osm_id" (objectFeatureProperties relation_id tags) =
      some (JVal.num relation_id) ∧
    ∀ k : String, k ≠ "osm_type" → k ≠ "osm_id" →
      alookup k (objectFeatureProperties relation_id tags) = alookup k tags := by
  refine ⟨rfl, ?_, ?_, ?_⟩
  · unfold objectFeatureProperties
    rw [alookup_dictSet_ne _ _ (by decide)]
    exact alookup_dictSet_self tags "osm_type" (JVal.str "relation")
  · exact alookup_dictSet_self _ "osm_id" (JVal.num relation_id)
  · intro k h1 h2
    unfold objectFeatureProperties
    rw [alookup_dictSet_ne _ _ h2, alookup_dictSet_ne _ _ h1]

/-- Witness for C9: a tag set whose osm_type collides with the reserved key
and whose population tag is preserved. -/
theorem c9_reserved_properties_override_witness :
    alookup "osm_type"
        (objectFeatureProperties 3 [("osm_type", JVal.str "node"),
          ("population", JVal.str "99")]) = some (JVal.str "relation") ∧
      alookup "population"
        (objectFeatureProperties 3 [("osm_type", JVal.str "node"),
          ("population", JVal.str "99")]) =
        alookup "population" [("osm_type", JVal.str "node"),
          ("population", JVal.str "99")] :=
  ⟨(c9_reserved_properties_override 3
      [("osm_type", JVal.str "node"), ("population", JVal.str "99")] 0).2.1,
   (c9_reserved_properties_override 3
      [("osm_type", JVal.str "node"), ("population", JVal.str "99")] 0).2.2.2
      "population" (by decide) (by decide)⟩

/-! ### Per-relation file replacement of write_object_geojson (storage.py) -/

/-- Glob semantics for a pattern of the shape pre*suf: the name splits into
the given front part, an arbitrary middle and the given back part. -/
def globPS (pre suf name : String) : Prop :=
  pre.data <+: name.data ∧ suf.data <:+ name.data ∧
    pre.length + suf.length ≤ name.length

/-- Embeds the two glob patterns of _rel_glob from storage.py: a file name
belongs to the relation when it matches r(rid)__*.geojson or
*__r(rid).geojson. -/
def relGlobMatch (relation_id : Nat) (name : String) : Prop :=
  globPS ("r" ++ Nat.repr relation_id ++ "__") ".geojson" name ∨
    ("__r" ++ Nat.repr relation_id ++ ".geojson").data <:+ name.data

instance (relation_id : Nat) (name : String) : Decidable (relGlobMatch relation_id name) := by
  unfold relGlobMatch globPS
  infer_instance

/-- Embeds the effect of write_object_geojson on the set of .geojson file
names in the objects directory: every sibling matched by _rel_glob whose
name differs from the new filename is unlinked, then the new file is
written atomically. -/
def write_object_geojson_names (dir : Finset String) (relation_id : Nat)
    (tags : Tags) : Finset String :=
  insert (object_filename relation_id tags)
    (dir.filter fun n => ¬(relGlobMatch relation_id n ∧ n ≠ object_filename relation_id tags))

theorem suffix_assoc4 {a b c s : List Char} : s <:+ a ++ (b ++ (c ++ s)) :=
  ((List.suffix_append c s).trans (List.suffix_append b (c ++ s))).trans
    (List.suffix_append a (b ++ (c ++ s)))

theorem object_filename_matches (relation_id : Nat) (tags : Tags) :
    relGlobMatch relation_id (object_filename relation_id tags) := by
  right
  unfold object_filename
  simp only [String.data_append, List.append_assoc]
  exact suffix_assoc4

/-- C5: after write_object_geojson, exactly one name in the directory
matches the per-relation glob patterns, namely the newly written file. -/
theorem c5_single_file_per_relation (dir : Finset String) (relation_id : Nat)
    (tags : Tags) :
    (write_object_geojson_names dir relation_id tags).filter
        (fun n => relGlobMatch relation_id n) =
      {object_filename relation_id tags} ∧
    object_filename relation_id tags ∈ write_object_geojson_names dir relation_id tags := by
  constructor
  · ext a
    simp only [write_object_geojson_names, Finset.mem_filter, Finset.mem_insert,
      Finset.mem_singleton]
    constructor
    · rintro ⟨rfl | ⟨_, hP⟩, hQ⟩
      · rfl
      · by_contra hne
        exact hP ⟨hQ, hne⟩
    · rintro rfl
      exact ⟨Or.inl rfl, object_filename_matches relation_id tags⟩
  · exact Finset.mem_insert_self _ _

/-! ### Antimeridian longitude unwrap (services/osm_geometry.py) -/

/-- Termination measure shared by the two while loops of
_unwrap_way_longitudes: how many 360-degree shifts remain. -/
def unwrapMeasure (x : ℚ) : Nat := (⌈x / 360⌉).toNat

theorem unwrapMeasure_lt {x : ℚ} (h : 0 < x) :
    unwrapMeasure (x - 360) < unwrapMeasure x := by
  unfold unwrapMeasure
  have h1 : ⌈(x - 360) / 360⌉ = ⌈x / 360⌉ - 1 := by
    rw [show (x - 360) / 360 = x / 360 - 1 by ring]
    exact_mod_cast Int.ceil_sub_int (x / 360) 1
  have h2 : 1 ≤ ⌈x / 360⌉ := Int.ceil_pos.mpr (by positivity)
  rw [h1]
  omega

/-- Embeds the first while loop of _unwrap_way_longitudes: shift the
longitude down by 360 while it is more than 180 above the previous one. -/
def unwrapLoop1 (prev cur : ℚ) : ℚ :=
  if 180 < cur - prev then unwrapLoop1 prev (cur - 360) else cur
termination_by unwrapMeasure (cur - prev - 180)
decreasing_by
  rw [show cur - 360 - prev - 180 = (cur - prev - 180) - 360 by ring]
  exact unwrapMeasure_lt (by linarith)

/-- Embeds the second while loop of _unwrap_way_longitudes: shift the
longitude up by 360 while it is more than 180 below the previous one. -/
def unwrapLoop2 (prev cur : ℚ) : ℚ :=
  if cur - prev < -180 then unwrapLoop2 prev (cur + 360) else cur
termination_by unwrapMeasure (prev - cur - 180)
decreasing_by
  rw [show prev - (cur + 360) - 180 = (prev - cur - 180) - 360 by ring]
  exact unwrapMeasure_lt (by linarith)

/-- One iteration of the for loop of _unwrap_way_longitudes. -/
def unwrapStep (prev lon : ℚ) : ℚ := unwrapLoop2 prev (unwrapLoop1 prev lon)

/-- The loop over coords 1..n of _unwrap_way_longitudes: each longitude is
shifted relative to the previous rewritten longitude. -/
def unwrapGo (prev : ℚ) : List (ℚ × ℚ) → List (ℚ × ℚ)
  | [] => []
  | (lon, lat) :: rest =>
    (unwrapStep prev lon, lat) :: unwrapGo (unwrapStep prev lon) rest

/-- Embeds _unwrap_way_longitudes from services/osm_geometry.py; a
coordinate is a (longitude, latitude) pair of rationals. -/
def unwrap_way_longitudes (coords : List (ℚ × ℚ)) : List (ℚ × ℚ) :=
  if coords.length < 2 then coords
  else
    match coords with
    | [] => []
    | c0 :: rest => c0 :: unwrapGo c0.1 rest

theorem unwrapLoop1_le (prev cur : ℚ) : unwrapLoop1 prev cur - prev ≤ 180 := by
  rw [unwrapLoop1]
  split
  next h => exact unwrapLoop1_le prev (cur - 360)
  next h => linarith [not_lt.mp h]
termination_by unwrapMeasure (cur - prev - 180)
decreasing_by
  rw [show cur - 360 - prev - 180 = (cur - prev - 180) - 360 by ring]
  exact unwrapMeasure_lt (by linarith)

theorem unwrapLoop2_ge (prev cur : ℚ) : -180 ≤ unwrapLoop2 prev cur - prev := by
  rw [unwrapLoop2]
  split
  next h => exact unwrapLoop2_ge prev (cur + 360)
  next h => linarith [not_lt.mp h]
termination_by unwrapMeasure (prev - cur - 180)
decreasing_by
  rw [show prev - (cur + 360) - 180 = (prev - cur - 180) - 360 by ring]
  exact unwrapMeasure_lt (by linarith)

theorem unwrapLoop2_le (prev cur : ℚ) (h : cur - prev ≤ 180) :
    unwrapLoop2 prev cur - prev ≤ 180 := by
  rw [unwrapLoop2]
  split
  next h2 => exact unwrapLoop2_le prev (cur + 360) (by linarith)
  next h2 => exact h
termination_by unwrapMeasure (prev - cur - 180)
decreasing_by
  rw [show prev - (cur + 360) - 180 = (prev - cur - 180) - 360 by ring]
  exact unwrapMeasure_lt (by linarith)

theorem unwrapStep_bounds (prev lon : ℚ) :
    prev - 180 ≤ unwrapStep prev lon ∧ unwrapStep prev lon ≤ prev + 180 := by
  have h1 := unwrapLoop1_le prev lon
  have h2 := unwrapLoop2_ge prev (unwrapLoop1 prev lon)
  have h3 := unwrapLoop2_le prev (unwrapLoop1 prev lon) h1
  unfold unwrapStep
  constructor
  · linarith
  · linarith

theorem unwrapGo_chain (l : List (ℚ × ℚ)) :
    ∀ p : ℚ × ℚ,
      List.Chain (fun a b : ℚ × ℚ => a.1 - 180 ≤ b.1 ∧ b.1 ≤ a.1 + 180) p
        (unwrapGo p.1 l) := by
  induction l with
  | nil => intro p; exact List.Chain.nil
  | cons c rest ih =>
    intro p
    obtain ⟨lon, lat⟩ := c
    show List.Chain _ p
      ((unwrapStep p.1 lon, lat) :: unwrapGo (unwrapStep p.1 lon) rest)
    refine List.Chain.cons ⟨(unwrapStep_bounds p.1 lon).1, (unwrapStep_bounds p.1 lon).2⟩ ?_
    exact ih (unwrapStep p.1 lon, lat)

/-- C2 counterexample: on the way [(0, 0), (-180, 0)] the unwrap leaves the
second longitude at -180, which is outside the half-open interval
(prev - 180, prev + 180] = (-180, 180] claimed for it. -/
theorem c2_halfopen_counterexample :
    unwrap_way_longitudes [((0 : ℚ), 0), (-180, 0)] = [((0 : ℚ), 0), (-180, 0)] ∧
      ¬((0 : ℚ) - 180 < -180 ∧ (-180 : ℚ) ≤ 0 + 180) := by
  have hl1 : unwrapLoop1 0 (-180) = -180 := by
    rw [unwrapLoop1]
    norm_num
  have hl2 : unwrapLoop2 0 (-180) = -180 := by
    rw [unwrapLoop2]
    norm_num
  constructor
  · simp [unwrap_way_longitudes, unwrapGo, unwrapStep, hl1, hl2]
  · norm_num

/-- C2 (amended): for every way with at least two coordinates, the unwrap
keeps the first coordinate unchanged and places every later rewritten
longitude in the closed interval from prev - 180 to prev + 180 around the
previous rewritten longitude; the half-open interval of the claim fails at
exactly prev - 180, as the counterexample shows. -/
theorem c2_unwrap_closed_interval (coords : List (ℚ × ℚ))
    (h : 2 ≤ coords.length) :
    (unwrap_way_longitudes coords).head? = coords.head? ∧
      List.Chain' (fun a b : ℚ × ℚ => a.1 - 180 ≤ b.1 ∧ b.1 ≤ a.1 + 180)
        (unwrap_way_longitudes coords) := by
  cases coords with
  | nil => simp at h
  | cons c0 rest =>
    have hnot : ¬((c0 :: rest).length < 2) := not_lt.mpr h
    unfold unwrap_way_longitudes
    rw [if_neg hnot]
    refine ⟨rfl, ?_⟩
    show List.Chain _ c0 (unwrapGo c0.1 rest)
    exact unwrapGo_chain rest c0

/-- Witness for C2 at the concrete way [(0, 0), (10, 0)]. -/
theorem c2_unwrap_closed_interval_witness :
    (unwrap_way_longitudes [((0 : ℚ), 0), (10, 0)]).head? =
        ([((0 : ℚ), 0), (10, 0)] : List (ℚ × ℚ)).head? ∧
      List.Chain' (fun a b : ℚ × ℚ => a.1 - 180 ≤ b.1 ∧ b.1 ≤ a.1 + 180)
        (unwrap_way_longitudes [((0 : ℚ), 0), (10, 0)]) :=
  c2_unwrap_closed_interval [((0 : ℚ), 0), (10, 0)] (by norm_num)

/-! ### Job events and the coalescing event queue (services/jobs.py) -/

/-- Event payloads reuse the JVal dictionaries. -/
abbrev EventData := Tags

/-- Embeds the JobEvent dataclass from services/downloader.py. -/
structure JobEvent where
  type : String
  data : EventData
  deriving DecidableEq, Repr

/-- The queue capacity _SSE_QUEUE_MAX of jobs.py. -/
def SSE_QUEUE_MAX : Nat := 1024

/-- The coalesced event types _COALESCE_EVENT_TYPES of jobs.py. -/
def coalesceTypes : List String :=
  ["overall_progress", "land_polygons_download_progress", "clip_cache_stats"]

/-- Embeds the Job dataclass of jobs.py; the asyncio queue is the list of
queued events with the front at the head, the queued-types set is a
duplicate-free list, and the pending map is a dictionary. -/
structure Job where
  job_id : String
  created_at_epoch : ℚ
  params : EventData
  queue : List JobEvent
  status : String
  progress : EventData
  error : Option String
  cancelled : Bool
  finished_at_epoch : Option ℚ
  pending_coalesced : List (String × JobEvent)
  queued_coalesced_types : List String
  dropped_events : Nat

/-- A freshly created job record. -/
def initJob : Job :=
  { job_id := "", created_at_epoch := 0, params := [], queue := [],
    status := "queued", progress := [], error := none, cancelled := false,
    finished_at_epoch := none, pending_coalesced := [],
    queued_coalesced_types := [], dropped_events := 0 }

/-- Models set.add on the queued-types set. -/
def insertType (l : List String) (t : String) : List String :=
  if t ∈ l then l else t :: l

/-- Models set.discard on the queued-types set. -/
def discardType (l : List String) (t : String) : List String := l.erase t

/-- Models dict.pop(key, None) on the pending map. -/
def pendingRemove (d : List (String × JobEvent)) (k : String) :
    List (String × JobEvent) :=
  d.filter (fun e => ¬(e.1 = k))

/-- Embeds Job._enqueue_with_backpressure from jobs.py.  The queue-empty
fallback mirrors the QueueEmpty branch, in which the retry put succeeds. -/
def enqueueWithBackpressure (j : Job) (ev : JobEvent) : Job × Bool :=
  if j.queue.length < SSE_QUEUE_MAX then
    ({ j with queue := j.queue ++ [ev] }, true)
  else
    match j.queue with
    | [] => ({ j with queue := j.queue ++ [ev] }, true)
    | d :: rest =>
      let j1 := { j with
        queue := rest,
        dropped_events := j.dropped_events + 1,
        queued_coalesced_types :=
          if d.type ∈ coalesceTypes then discardType j.queued_coalesced_types d.type
          else j.queued_coalesced_types }
      if j1.queue.length < SSE_QUEUE_MAX then
        ({ j1 with queue := j1.queue ++ [ev] }, true)
      else
        ({ j1 with dropped_events := j1.dropped_events + 1 }, false)

/-- The coalescing part of Job.emit, after the progress snapshot update. -/
def jobEmitCore (j : Job) (ev : JobEvent) : Job :=
  if ev.type ∈ coalesceTypes then
    if ev.type ∈ j.queued_coalesced_types then
      { j with pending_coalesced := dictSet j.pending_coalesced ev.type ev }
    else
      let p := enqueueWithBackpressure j ev
      if p.2 then
        { p.1 with queued_coalesced_types := insertType p.1.queued_coalesced_types ev.type }
      else
        { p.1 with pending_coalesced := dictSet p.1.pending_coalesced ev.type ev }
  else (enqueueWithBackpressure j ev).1

/-- Embeds Job.emit from jobs.py: record the latest overall progress, then
run the coalescing queue logic. -/
def jobEmit (j : Job) (ev : JobEvent) : Job :=
  jobEmitCore
    (if ev.type = "overall_progress" then { j with progress := ev.data } else j) ev

/-- Embeds the loop of Job.flush_coalesced_events over a snapshot of the
pending keys; a failed enqueue breaks out of the loop. -/
def flushLoop : Job → List String → Job
  | j, [] => j
  | j, t :: ks =>
    if t ∈ j.queued_coalesced_types then flushLoop j ks
    else
      match alookup t j.pending_coalesced with
      | none => flushLoop j ks
      | some ev =>
        let p := enqueueWithBackpressure j ev
        if p.2 then
          flushLoop
            { p.1 with
              queued_coalesced_types := insertType p.1.queued_coalesced_types t,
              pending_coalesced := pendingRemove p.1.pending_coalesced t } ks
        else p.1

/-- Embeds Job.flush_coalesced_events from jobs.py. -/
def flushCoalescedEvents (j : Job) : Job :=
  if j.pending_coalesced = [] then j
  else flushLoop j (j.pending_coalesced.map (fun e => e.1))

/-- Embeds Job.on_event_delivered from jobs.py. -/
def onEventDelivered (j : Job) (ev : JobEvent) : Job :=
  if ev.type ∈ coalesceTypes then
    flushCoalescedEvents
      { j with queued_coalesced_types := discardType j.queued_coalesced_types ev.type }
  else j

/-- One delivery step of the SSE generator of main.py: the consumer pops the
front event from the queue and runs on_event_delivered on it. -/
def jobDeliver (j : Job) : Job :=
  match j.queue with
  | [] => j
  | ev :: rest => onEventDelivered { j with queue := rest } ev

/-- The operations a job is driven by. -/
inductive JobOp where
  | emit : JobEvent → JobOp
  | deliver : JobOp
  | flush : JobOp

/-- Operational semantics of a job record. -/
def jobStep (j : Job) : JobOp → Job
  | JobOp.emit ev => jobEmit j ev
  | JobOp.deliver => jobDeliver j
  | JobOp.flush => flushCoalescedEvents j

/-- A job driven from its initial state through a list of operations. -/
def runJobOps (ops : List JobOp) : Job := ops.foldl jobStep initJob

/-- Number of queued events of one type. -/
def countT (t : String) (q : List JobEvent) : Nat :=
  (q.filter (fun e => e.type = t)).length

theorem countT_cons (t : String) (d : JobEvent) (q : List JobEvent) :
    countT t (d :: q) = (if d.type = t then 1 else 0) + countT t q := by
  unfold countT
  rw [List.filter_cons]
  by_cases h : d.type = t
  · simp [h, Nat.add_comm]
  · simp [h]

theorem countT_append_single (t : String) (q : List JobEvent) (ev : JobEvent) :
    countT t (q ++ [ev]) = countT t q + (if ev.type = t then 1 else 0) := by
  unfold countT
  rw [List.filter_append]
  by_cases h : ev.type = t
  · simp [h]
  · simp [h]

theorem mem_insertType {l : List String} {t s : String} :
    s ∈ insertType l t ↔ s ∈ l ∨ s = t := by
  unfold insertType
  by_cases h : t ∈ l
  · rw [if_pos h]
    constructor
    · exact Or.inl
    · rintro (hs | rfl)
      exacts [hs, h]
  · rw [if_neg h, List.mem_cons]
    tauto

theorem insertType_nodup {l : List String} (h : l.Nodup) (t : String) :
    (insertType l t).Nodup := by
  unfold insertType
  by_cases ht : t ∈ l
  · rw [if_pos ht]; exact h
  · rw [if_neg ht]; exact List.nodup_cons.mpr ⟨ht, h⟩

theorem alookup_some {α : Type} {k : String} {d : List (String × α)} {v : α}
    (h : alookup k d = some v) : (k, v) ∈ d := by
  unfold alookup at h
  cases hf : d.find? (fun e => decide (e.1 = k)) with
  | none => rw [hf] at h; simp at h
  | some e =>
    rw [hf] at h
    have he := List.mem_of_find?_eq_some hf
    have hek : e.1 = k := by simpa using List.find?_some hf
    have hv : e.2 = v := by simpa using h
    rw [← hek, ← hv]
    exact he

/-- The coalescing invariant: each coalesced type is queued at most once,
the queued-types set tracks queue membership exactly and has no duplicates,
and every pending entry is keyed by its own coalesced type. -/
def CoalesceInv (j : Job) : Prop :=
  (∀ t ∈ coalesceTypes, countT t j.queue ≤ 1 ∧
      (t ∈ j.queued_coalesced_types ↔ countT t j.queue = 1)) ∧
    j.queued_coalesced_types.Nodup ∧
    ∀ e ∈ j.pending_coalesced, e.2.type = e.1 ∧ e.1 ∈ coalesceTypes

theorem pending_inv_dictSet {d : List (String × JobEvent)} {ev : JobEvent}
    (h : ∀ e ∈ d, e.2.type = e.1 ∧ e.1 ∈ coalesceTypes)
    (hev : ev.type ∈ coalesceTypes) :
    ∀ e ∈ dictSet d ev.type ev, e.2.type = e.1 ∧ e.1 ∈ coalesceTypes := by
  intro e he
  unfold dictSet at he
  split at he
  · rcases List.mem_map.mp he with ⟨x, hx, hxe⟩
    by_cases hxk : x.1 = ev.type
    · rw [if_pos hxk] at hxe
      rw [← hxe]
      exact ⟨rfl, hev⟩
    · rw [if_neg hxk] at hxe
      rw [← hxe]
      exact h x hx
  · rcases List.mem_append.mp he with he | he
    · exact h e he
    · rw [List.mem_singleton.mp he]
      exact ⟨rfl, hev⟩

theorem pending_inv_remove {d : List (String × JobEvent)} {k : String}
    (h : ∀ e ∈ d, e.2.type = e.1 ∧ e.1 ∈ coalesceTypes) :
    ∀ e ∈ pendingRemove d k, e.2.type = e.1 ∧ e.1 ∈ coalesceTypes :=
  fun e he => h e (List.mem_of_mem_filter he)

theorem drop_head_spec {qt : List String} {d : JobEvent} {rest : List JobEvent}
    (hq : ∀ t ∈ coalesceTypes, countT t (d :: rest) ≤ 1 ∧
      (t ∈ qt ↔ countT t (d :: rest) = 1))
    (hnd : qt.Nodup) :
    (if d.type ∈ coalesceTypes then discardType qt d.type else qt).Nodup ∧
      ∀ t ∈ coalesceTypes, countT t rest ≤ 1 ∧
        (t ∈ (if d.type ∈ coalesceTypes then discardType qt d.type else qt) ↔
          countT t rest = 1) := by
  simp only [discardType]
  constructor
  · by_cases hdco : d.type ∈ coalesceTypes
    · rw [if_pos hdco]; exact hnd.erase d.type
    · rw [if_neg hdco]; exact hnd
  · intro t ht
    have hle := (hq t ht).1
    have hiff := (hq t ht).2
    rw [countT_cons] at hle hiff
    by_cases hdt : d.type = t
    · rw [if_pos hdt] at hle hiff
      have hco : d.type ∈ coalesceTypes := hdt ▸ ht
      rw [if_pos hco]
      refine ⟨by omega, ?_⟩
      constructor
      · intro hmem
        rw [← hdt] at hmem
        exact absurd ((List.Nodup.mem_erase_iff hnd).mp hmem).1 (fun h => h rfl)
      · intro hcnt
        omega
    · rw [if_neg hdt, Nat.zero_add] at hle hiff
      refine ⟨hle, ?_⟩
      by_cases hdco : d.type ∈ coalesceTypes
      · rw [if_pos hdco, List.mem_erase_of_ne (fun h => hdt h.symm)]
        exact hiff
      · rw [if_neg hdco]
        exact hiff

theorem enqueue_spec (j : Job) (ev : JobEvent) (hInv : CoalesceInv j)
    (hev : ev.type ∈ coalesceTypes → countT ev.type j.queue = 0) :
    (enqueueWithBackpressure j ev).1.pending_coalesced = j.pending_coalesced ∧
    (enqueueWithBackpressure j ev).1.queued_coalesced_types.Nodup ∧
    (∀ t ∈ coalesceTypes, t ≠ ev.type →
        countT t (enqueueWithBackpressure j ev).1.queue ≤ 1 ∧
          (t ∈ (enqueueWithBackpressure j ev).1.queued_coalesced_types ↔
            countT t (enqueueWithBackpressure j ev).1.queue = 1)) ∧
    (ev.type ∈ coalesceTypes →
        ev.type ∉ (enqueueWithBackpressure j ev).1.queued_coalesced_types ∧
        countT ev.type (enqueueWithBackpressure j ev).1.queue =
          (if (enqueueWithBackpressure j ev).2 then 1 else 0)) := by
  obtain ⟨hq, hnd, hpend⟩ := hInv
  unfold enqueueWithBackpressure
  by_cases hlen : j.queue.length < SSE_QUEUE_MAX
  · simp only [if_pos hlen]
    refine ⟨by trivial, hnd, ?_, ?_⟩
    · intro t ht hne
      rw [countT_append_single, if_neg (fun h => hne h.symm), Nat.add_zero]
      exact hq t ht
    · intro hco
      have h0 := hev hco
      refine ⟨?_, ?_⟩
      · intro hmem
        have := (hq ev.type hco).2.mp hmem
        omega
      · rw [countT_append_single, h0, if_pos rfl]
        simp
  · simp only [if_neg hlen]
    cases hqe : j.queue with
    | nil =>
      simp only
      rw [hqe] at hq
      refine ⟨by trivial, hnd, ?_, ?_⟩
      · intro t ht hne
        rw [countT_append_single, if_neg (fun h => hne h.symm), Nat.add_zero]
        exact hq t ht
      · intro hco
        refine ⟨?_, ?_⟩
        · intro hmem
          have := (hq ev.type hco).2.mp hmem
          simp [countT] at this
        · rw [countT_append_single, if_pos rfl]
          simp [countT]
    | cons d rest =>
      rw [hqe] at hq hev
      obtain ⟨hnd2, hqrest⟩ := drop_head_spec hq hnd
      by_cases hlen2 : rest.length < SSE_QUEUE_MAX
      · simp only [List.length_cons, if_pos hlen2]
        refine ⟨by trivial, hnd2, ?_, ?_⟩
        · intro t ht hne
          rw [countT_append_single, if_neg (fun h => hne h.symm), Nat.add_zero]
          exact hqrest t ht
        · intro hco
          have h0 := hev hco
          rw [countT_cons] at h0
          have hd0 : ¬(d.type = ev.type) := by
            intro hdt
            rw [if_pos hdt] at h0
            omega
          have hrest0 : countT ev.type rest = 0 := by
            rw [if_neg hd0] at h0
            omega
          refine ⟨?_, ?_⟩
          · intro hmem
            have := (hqrest ev.type hco).2.mp hmem
            omega
          · rw [countT_append_single, hrest0, if_pos rfl]
            simp
      · simp only [List.length_cons, if_neg hlen2]
        refine ⟨by trivial, hnd2, ?_, ?_⟩
        · intro t ht hne
          exact hqrest t ht
        · intro hco
          have h0 := hev hco
          rw [countT_cons] at h0
          have hd0 : ¬(d.type = ev.type) := by
            intro hdt
            rw [if_pos hdt] at h0
            omega
          have hrest0 : countT ev.type rest = 0 := by
            rw [if_neg hd0] at h0
            omega
          refine ⟨?_, ?_⟩
          · intro hmem
            have := (hqrest ev.type hco).2.mp hmem
            omega
          · rw [hrest0]
            simp

theorem count_zero_of_not_queued {j : Job} {t : String}
    (hq : ∀ t ∈ coalesceTypes, countT t j.queue ≤ 1 ∧
      (t ∈ j.queued_coalesced_types ↔ countT t j.queue = 1))
    (hco : t ∈ coalesceTypes) (hqt : t ∉ j.queued_coalesced_types) :
    countT t j.queue = 0 := by
  have hle := (hq t hco).1
  have hiff := (hq t hco).2
  have : ¬(countT t j.queue = 1) := fun h1 => hqt (hiff.mpr h1)
  omega

theorem jobEmitCore_inv {j : Job} (hInv : CoalesceInv j) (ev : JobEvent) :
    CoalesceInv (jobEmitCore j ev) := by
  obtain ⟨hq, hnd, hpend⟩ := hInv
  unfold jobEmitCore
  by_cases hco : ev.type ∈ coalesceTypes
  · rw [if_pos hco]
    by_cases hqt : ev.type ∈ j.queued_coalesced_types
    · rw [if_pos hqt]
      exact ⟨hq, hnd, pending_inv_dictSet hpend hco⟩
    · rw [if_neg hqt]
      have h0 : countT ev.type j.queue = 0 := count_zero_of_not_queued hq hco hqt
      obtain ⟨hp, hnd2, hother, hself⟩ :=
        enqueue_spec j ev ⟨hq, hnd, hpend⟩ (fun _ => h0)
      obtain ⟨hsm, hsc⟩ := hself hco
      by_cases hb : (enqueueWithBackpressure j ev).2 = true
      · simp only [hb, if_true]
        refine ⟨?_, insertType_nodup hnd2 ev.type, hp ▸ hpend⟩
        intro t ht
        dsimp only
        by_cases hte : t = ev.type
        · subst hte
          rw [hb, if_pos rfl] at hsc
          refine ⟨by omega, ?_⟩
          rw [mem_insertType]
          constructor
          · intro _; exact hsc
          · intro _; exact Or.inr rfl
        · have := hother t ht hte
          refine ⟨this.1, ?_⟩
          rw [mem_insertType]
          constructor
          · rintro (hm | rfl)
            · exact this.2.mp hm
            · exact absurd rfl hte
          · intro hcnt
            exact Or.inl (this.2.mpr hcnt)
      · have hb' : (enqueueWithBackpressure j ev).2 = false := by
          cases hbv : (enqueueWithBackpressure j ev).2
          · rfl
          · exact absurd hbv hb
        simp only [hb', if_false, Bool.false_eq_true]
        refine ⟨?_, hnd2, pending_inv_dictSet (hp ▸ hpend) hco⟩
        intro t ht
        dsimp only
        by_cases hte : t = ev.type
        · subst hte
          rw [hb', if_neg (by simp)] at hsc
          refine ⟨by omega, ?_⟩
          constructor
          · intro hmem; exact absurd hmem hsm
          · intro hcnt; omega
        · exact hother t ht hte
  · rw [if_neg hco]
    obtain ⟨hp, hnd2, hother, _⟩ :=
      enqueue_spec j ev ⟨hq, hnd, hpend⟩ (fun hc => absurd hc hco)
    refine ⟨?_, hnd2, hp ▸ hpend⟩
    intro t ht
    exact hother t ht (fun hte => hco (hte ▸ ht))

theorem jobEmit_inv {j : Job} (hInv : CoalesceInv j) (ev : JobEvent) :
    CoalesceInv (jobEmit j ev) := by
  obtain ⟨hq, hnd, hpend⟩ := hInv
  unfold jobEmit
  by_cases hop : ev.type = "overall_progress"
  · rw [if_pos hop]
    exact @jobEmitCore_inv { j with progress := ev.data } ⟨hq, hnd, hpend⟩ ev
  · rw [if_neg hop]
    exact @jobEmitCore_inv j ⟨hq, hnd, hpend⟩ ev

theorem flushLoop_inv : ∀ (ks : List String) (j : Job),
    CoalesceInv j → CoalesceInv (flushLoop j ks)
  | [], j, h => h
  | t :: ks, j, h => by
    obtain ⟨hq, hnd, hpend⟩ := h
    unfold flushLoop
    by_cases hqt : t ∈ j.queued_coalesced_types
    · rw [if_pos hqt]
      exact flushLoop_inv ks j ⟨hq, hnd, hpend⟩
    · rw [if_neg hqt]
      cases hl : alookup t j.pending_coalesced with
      | none => exact flushLoop_inv ks j ⟨hq, hnd, hpend⟩
      | some ev =>
        have hkey := hpend (t, ev) (alookup_some hl)
        have hevt : ev.type = t := hkey.1
        have hco : t ∈ coalesceTypes := hkey.2
        have h0 : countT t j.queue = 0 := count_zero_of_not_queued hq hco hqt
        obtain ⟨hp, hnd2, hother, hself⟩ :=
          enqueue_spec j ev ⟨hq, hnd, hpend⟩ (fun _ => by rw [hevt]; exact h0)
        obtain ⟨hsm, hsc⟩ := hself (by rw [hevt]; exact hco)
        rw [hevt] at hsm hsc
        by_cases hb : (enqueueWithBackpressure j ev).2 = true
        · simp only [hb, if_true]
          apply flushLoop_inv ks
          refine ⟨?_, insertType_nodup hnd2 t, pending_inv_remove (hp ▸ hpend)⟩
          intro s hs
          dsimp only
          by_cases hst : s = t
          · subst hst
            rw [hb, if_pos rfl] at hsc
            refine ⟨by omega, ?_⟩
            rw [mem_insertType]
            constructor
            · intro _; exact hsc
            · intro _; exact Or.inr rfl
          · have := hother s hs (by rw [hevt]; exact hst)
            refine ⟨this.1, ?_⟩
            rw [mem_insertType]
            constructor
            · rintro (hm | rfl)
              · exact this.2.mp hm
              · exact absurd rfl hst
            · intro hcnt
              exact Or.inl (this.2.mpr hcnt)
        · have hb' : (enqueueWithBackpressure j ev).2 = false := by
            cases hbv : (enqueueWithBackpressure j ev).2
            · rfl
            · exact absurd hbv hb
          simp only [hb', if_false, Bool.false_eq_true]
          refine ⟨?_, hnd2, hp ▸ hpend⟩
          intro s hs
          try dsimp only
          by_cases hst : s = t
          · subst hst
            rw [hb', if_neg (by simp)] at hsc
            refine ⟨by omega, ?_⟩
            constructor
            · intro hmem; exact absurd hmem hsm
            · intro hcnt; omega
          · exact hother s hs (by rw [hevt]; exact hst)

theorem flushCoalescedEvents_inv {j : Job} (h : CoalesceInv j) :
    CoalesceInv (flushCoalescedEvents j) := by
  unfold flushCoalescedEvents
  by_cases hp : j.pending_coalesced = []
  · rw [if_pos hp]; exact h
  · rw [if_neg hp]
    exact flushLoop_inv _ j h

theorem jobDeliver_inv {j : Job} (h : CoalesceInv j) :
    CoalesceInv (jobDeliver j) := by
  obtain ⟨hq, hnd, hpend⟩ := h
  unfold jobDeliver
  cases hqe : j.queue with
  | nil => exact ⟨hq, hnd, hpend⟩
  | cons ev rest =>
    rw [hqe] at hq
    dsimp only
    unfold onEventDelivered
    by_cases hco : ev.type ∈ coalesceTypes
    · rw [if_pos hco]
      apply flushCoalescedEvents_inv
      have hle := (hq ev.type hco).1
      rw [countT_cons, if_pos rfl] at hle
      refine ⟨?_, hnd.erase ev.type, hpend⟩
      intro t ht
      dsimp only
      simp only [discardType]
      by_cases hte : t = ev.type
      · subst hte
        refine ⟨by omega, ?_⟩
        constructor
        · intro hmem
          exact absurd ((List.Nodup.mem_erase_iff hnd).mp hmem).1 (fun hx => hx rfl)
        · intro hcnt
          omega
      · have hle2 := (hq t ht).1
        have hiff := (hq t ht).2
        rw [countT_cons, if_neg (fun hx => hte hx.symm), Nat.zero_add] at hle2 hiff
        refine ⟨hle2, ?_⟩
        rw [List.mem_erase_of_ne hte]
        exact hiff
    · rw [if_neg hco]
      refine ⟨?_, hnd, hpend⟩
      intro t ht
      dsimp only
      have hle := (hq t ht).1
      have hiff := (hq t ht).2
      have hne : ¬(ev.type = t) := fun hx => hco (hx ▸ ht)
      rw [countT_cons, if_neg hne, Nat.zero_add] at hle hiff
      exact ⟨hle, hiff⟩

theorem jobStep_inv {j : Job} (h : CoalesceInv j) (op : JobOp) :
    CoalesceInv (jobStep j op) := by
  cases op with
  | emit ev => exact jobEmit_inv h ev
  | deliver => exact jobDeliver_inv h
  | flush => exact flushCoalescedEvents_inv h

theorem foldl_jobStep_inv : ∀ (ops : List JobOp) (j : Job),
    CoalesceInv j → CoalesceInv (ops.foldl jobStep j)
  | [], _, h => h
  | op :: ops, j, h => foldl_jobStep_inv ops (jobStep j op) (jobStep_inv h op)

theorem initJob_inv : CoalesceInv initJob := by
  refine ⟨?_, List.nodup_nil, ?_⟩
  · intro t _
    refine ⟨?_, ?_⟩
    · show countT t [] ≤ 1
      rw [show countT t [] = 0 from rfl]
      omega
    · constructor
      · intro hmem
        exact absurd hmem (List.not_mem_nil t)
      · intro hcnt
        have hc0 : countT t initJob.queue = 0 := rfl
        rw [hc0] at hcnt
        exact absurd hcnt (by omega)
  · intro e he
    exact absurd he (List.not_mem_nil e)

theorem runJobOps_inv (ops : List JobOp) : CoalesceInv (runJobOps ops) :=
  foldl_jobStep_inv ops initJob initJob_inv

theorem jobEmit_queued (j : Job) (ev : JobEvent) (hco : ev.type ∈ coalesceTypes)
    (hqt : ev.type ∈ j.queued_coalesced_types) :
    (jobEmit j ev).queue = j.queue ∧
      alookup ev.type (jobEmit j ev).pending_coalesced = some ev := by
  unfold jobEmit
  by_cases hop : ev.type = "overall_progress"
  · rw [if_pos hop]
    unfold jobEmitCore
    rw [if_pos hco, if_pos hqt]
    exact ⟨rfl, alookup_dictSet_self _ _ _⟩
  · rw [if_neg hop]
    unfold jobEmitCore
    rw [if_pos hco, if_pos hqt]
    exact ⟨rfl, alookup_dictSet_self _ _ _⟩

/-- C4: along every sequence of emit, deliver and flush operations, the
queue holds at most one instance of each coalesced type, and emitting an
instance of a type that is already queued rewrites the pending slot of that
type instead of enqueueing. -/
theorem c4_coalesced_queue_bound (ops : List JobOp) (t : String)
    (ht : t ∈ coalesceTypes) :
    countT t (runJobOps ops).queue ≤ 1 ∧
      ∀ ev : JobEvent, ev.type = t →
        t ∈ (runJobOps ops).queued_coalesced_types →
        (jobEmit (runJobOps ops) ev).queue = (runJobOps ops).queue ∧
          alookup t (jobEmit (runJobOps ops) ev).pending_coalesced = some ev := by
  have hInv := runJobOps_inv ops
  refine ⟨(hInv.1 t ht).1, ?_⟩
  intro ev hevt hmem
  have h := jobEmit_queued (runJobOps ops) ev (by rw [hevt]; exact ht)
    (by rw [hevt]; exact hmem)
  rw [hevt] at h
  exact h

/-- Witness for C4 on a two-emit trace of overall_progress events. -/
theorem c4_coalesced_queue_bound_witness :
    countT "overall_progress"
      (runJobOps [JobOp.emit ⟨"overall_progress", []⟩,
        JobOp.emit ⟨"overall_progress", [("done", JVal.num 1)]⟩]).queue ≤ 1 :=
  (c4_coalesced_queue_bound
    [JobOp.emit ⟨"overall_progress", []⟩,
      JobOp.emit ⟨"overall_progress", [("done", JVal.num 1)]⟩]
    "overall_progress" (by decide)).1

/-! ### JobManager.cancel (services/jobs.py) -/

/-- Embeds Job.request_cancel. -/
def requestCancel (j : Job) : Job := { j with cancelled := true }

/-- The log event emitted by JobManager.cancel. -/
def cancelLogEvent : JobEvent :=
  ⟨"log", [("message", JVal.str "Cancel requested")]⟩

/-- Embeds JobManager.cancel: look up the job by id, set its cancelled flag,
emit a log event; only an unknown job id returns false. -/
def jobManagerCancel (jobs : List (String × Job)) (job_id : String) :
    List (String × Job) × Bool :=
  match alookup job_id jobs with
  | none => (jobs, false)
  | some j =>
    (jobs.map (fun e =>
      if e.1 = job_id then (job_id, jobEmit (requestCancel j) cancelLogEvent) else e),
     true)

theorem enqueue_frame (j : Job) (ev : JobEvent) :
    (enqueueWithBackpressure j ev).1.status = j.status ∧
    (enqueueWithBackpressure j ev).1.progress = j.progress ∧
    (enqueueWithBackpressure j ev).1.error = j.error ∧
    (enqueueWithBackpressure j ev).1.cancelled = j.cancelled ∧
    (enqueueWithBackpressure j ev).1.finished_at_epoch = j.finished_at_epoch := by
  unfold enqueueWithBackpressure
  by_cases hlen : j.queue.length < SSE_QUEUE_MAX
  · simp [hlen]
  · simp only [if_neg hlen]
    cases j.queue with
    | nil => simp
    | cons d rest =>
      by_cases h2 : rest.length < SSE_QUEUE_MAX <;> simp [h2]

theorem jobEmit_log_frame (j : Job) :
    (jobEmit j cancelLogEvent).status = j.status ∧
    (jobEmit j cancelLogEvent).progress = j.progress ∧
    (jobEmit j cancelLogEvent).error = j.error ∧
    (jobEmit j cancelLogEvent).cancelled = j.cancelled ∧
    (jobEmit j cancelLogEvent).finished_at_epoch = j.finished_at_epoch ∧
    (j.queue.length < SSE_QUEUE_MAX →
      (jobEmit j cancelLogEvent).queue = j.queue ++ [cancelLogEvent]) := by
  unfold jobEmit
  rw [if_neg (by decide : ¬(cancelLogEvent.type = "overall_progress"))]
  unfold jobEmitCore
  rw [if_neg (by decide : ¬(cancelLogEvent.type ∈ coalesceTypes))]
  have hframe := enqueue_frame j cancelLogEvent
  refine ⟨hframe.1, hframe.2.1, hframe.2.2.1, hframe.2.2.2.1, hframe.2.2.2.2, ?_⟩
  intro hlen
  unfold enqueueWithBackpressure
  rw [if_pos hlen]

/-- C10: JobManager.cancel on an existing job returns true, sets only the
cancelled flag and enqueues a log event; status, progress, error and
finished_at_epoch are unchanged, so cancelling a job already in a terminal
state does not change its status. -/
theorem c10_cancel_frame (jobs : List (String × Job)) (job_id : String)
    (j : Job) (h : alookup job_id jobs = some j) :
    (jobManagerCancel jobs job_id).2 = true ∧
      alookup job_id (jobManagerCancel jobs job_id).1 =
        some (jobEmit (requestCancel j) cancelLogEvent) ∧
      (jobEmit (requestCancel j) cancelLogEvent).status = j.status ∧
      (jobEmit (requestCancel j) cancelLogEvent).progress = j.progress ∧
      (jobEmit (requestCancel j) cancelLogEvent).error = j.error ∧
      (jobEmit (requestCancel j) cancelLogEvent).finished_at_epoch =
        j.finished_at_epoch ∧
      (jobEmit (requestCancel j) cancelLogEvent).cancelled = true ∧
      (j.queue.length < SSE_QUEUE_MAX →
        (jobEmit (requestCancel j) cancelLogEvent).queue =
          j.queue ++ [cancelLogEvent]) := by
  have hframe := jobEmit_log_frame (requestCancel j)
  have hany : jobs.any (fun e => e.1 = job_id) = true := by
    rw [List.any_eq_true]
    exact ⟨(job_id, j), alookup_some h, by simp⟩
  unfold jobManagerCancel
  rw [h]
  have hmap : jobs.map (fun e =>
      if e.1 = job_id then (job_id, jobEmit (requestCancel j) cancelLogEvent) else e) =
      dictSet jobs job_id (jobEmit (requestCancel j) cancelLogEvent) := by
    unfold dictSet
    rw [if_pos hany]
  refine ⟨rfl, ?_, hframe.1, hframe.2.1, hframe.2.2.1, hframe.2.2.2.2.1,
    hframe.2.2.2.1, hframe.2.2.2.2.2⟩
  show alookup job_id (jobs.map fun e =>
    if e.1 = job_id then (job_id, jobEmit (requestCancel j) cancelLogEvent) else e) = _
  rw [hmap]
  exact alookup_dictSet_self _ _ _

/-- Witness for C10: cancelling the only job of a one-job manager. -/
theorem c10_cancel_frame_witness :
    (jobManagerCancel [("a", initJob)] "a").2 = true ∧
      (jobEmit (requestCancel initJob) cancelLogEvent).status = initJob.status :=
  ⟨(c10_cancel_frame [("a", initJob)] "a" initJob rfl).1,
   (c10_cancel_frame [("a", initJob)] "a" initJob rfl).2.2.1⟩

/-! ### The land-union cache (services/land_polygons.py) -/

/-- The capacity _LAND_UNION_CACHE_MAX of land_polygons.py. -/
def LAND_UNION_CACHE_MAX : Nat := 96

/-- The tile size _BBOX_TILE_DEG of land_polygons.py, in degrees. -/
def BBOX_TILE_DEG : ℚ := 5

/-- A key of the land-union cache. -/
abbrev LKey := Int × Int × Int × Int × Int

/-- Models Python round: banker's rounding, halves go to the even integer. -/
def pyRound (q : ℚ) : Int :=
  if q - ⌊q⌋ < 1 / 2 then ⌊q⌋
  else if 1 / 2 < q - ⌊q⌋ then ⌊q⌋ + 1
  else if ⌊q⌋ % 2 = 0 then ⌊q⌋ else ⌊q⌋ + 1

/-- Embeds _bbox_cache_key from services/land_polygons.py. -/
def _bbox_cache_key (bbox : ℚ × ℚ × ℚ × ℚ) (bbox_pad_deg : ℚ) : LKey :=
  let padded_minx := bbox.1 - bbox_pad_deg
  let padded_miny := bbox.2.1 - bbox_pad_deg
  let padded_maxx := bbox.2.2.1 + bbox_pad_deg
  let padded_maxy := bbox.2.2.2 + bbox_pad_deg
  (⌊padded_minx / BBOX_TILE_DEG⌋, ⌊padded_miny / BBOX_TILE_DEG⌋,
   ⌈padded_maxx / BBOX_TILE_DEG⌉, ⌈padded_maxy / BBOX_TILE_DEG⌉,
   pyRound (bbox_pad_deg * 100))

/-- Spec-side key, written from the words of section 3 of the
specification: the integer 5-tuple of floor(padded_minx/T),
floor(padded_miny/T), ceil(padded_maxx/T), ceil(padded_maxy/T) and
round(pad_deg*100), with T = 5 degrees. -/
def specCacheKey (bbox : ℚ × ℚ × ℚ × ℚ) (pad_deg : ℚ) : LKey :=
  (⌊(bbox.1 - pad_deg) / 5⌋, ⌊(bbox.2.1 - pad_deg) / 5⌋,
   ⌈(bbox.2.2.1 + pad_deg) / 5⌉, ⌈(bbox.2.2.2 + pad_deg) / 5⌉,
   pyRound (pad_deg * 100))

/-- Embeds OrderedDict.move_to_end on the cache list; the head is the least
recently used entry. -/
def lcMoveToEnd {V : Type} (c : List (LKey × V)) (k : LKey) : List (LKey × V) :=
  match (c.find? (fun e => e.1 = k)).map (fun e => e.2) with
  | none => c
  | some v => (c.eraseP (fun e => e.1 = k)) ++ [(k, v)]

/-- Embeds load_land_union_for_bbox on an already computed key; the unioned
geometry computed on a miss is abstracted by the compute oracle, applied to
the key the query bbox is derived from. -/
def load_land_union_key {V : Type} (compute : LKey → V) (c : List (LKey × V))
    (k : LKey) : (V × Bool) × List (LKey × V) :=
  match (c.find? (fun e => e.1 = k)).map (fun e => e.2) with
  | some v => ((v, true), lcMoveToEnd c k)
  | none =>
    let v := compute k
    let c1 := c ++ [(k, v)]
    ((v, false), if LAND_UNION_CACHE_MAX < c1.length then c1.tail else c1)

/-- Embeds load_land_union_for_bbox from services/land_polygons.py. -/
def load_land_union_for_bbox {V : Type} (compute : LKey → V)
    (c : List (LKey × V)) (bbox : ℚ × ℚ × ℚ × ℚ) (bbox_pad_deg : ℚ) :
    (V × Bool) × List (LKey × V) :=
  load_land_union_key compute c (_bbox_cache_key bbox bbox_pad_deg)

/-- A sequence of cache calls, returning the final cache state. -/
def runLandCalls {V : Type} (compute : LKey → V) :
    List (LKey × V) → List ((ℚ × ℚ × ℚ × ℚ) × ℚ) → List (LKey × V)
  | c, [] => c
  | c, bp :: rest =>
    runLandCalls compute (load_land_union_for_bbox compute c bp.1 bp.2).2 rest

/-- The key k sits in the cache with at most m entries more recent than it. -/
def LandInv {V : Type} (k : LKey) (m : Nat) (c : List (LKey × V)) : Prop :=
  ∃ old v new, c = old ++ (k, v) :: new ∧ new.length ≤ m

theorem landInv_first {V : Type} (compute : LKey → V) (c : List (LKey × V))
    (k : LKey) : LandInv k 0 (load_land_union_key compute c k).2 := by
  unfold load_land_union_key
  cases hf : (c.find? (fun e => e.1 = k)).map (fun e => e.2) with
  | some v =>
    simp only
    unfold lcMoveToEnd
    rw [hf]
    exact ⟨c.eraseP (fun e => e.1 = k), v, [], rfl, Nat.le_refl 0⟩
  | none =>
    simp only
    by_cases hlen : LAND_UNION_CACHE_MAX < (c ++ [(k, compute k)]).length
    · rw [if_pos hlen]
      cases hc : c with
      | nil =>
        exfalso
        rw [hc] at hlen
        simp [LAND_UNION_CACHE_MAX] at hlen
      | cons x c2 =>
        rw [List.cons_append, List.tail_cons]
        exact ⟨c2, compute k, [], rfl, Nat.le_refl 0⟩
    · rw [if_neg hlen]
      exact ⟨c, compute k, [], rfl, Nat.le_refl 0⟩

theorem landInv_step {V : Type} (compute : LKey → V) {c : List (LKey × V)}
    {k : LKey} {m : Nat} (hInv : LandInv k m c) (hm : m ≤ 94) {k2 : LKey}
    (hk : k2 ≠ k) :
    LandInv k (m + 1) (load_land_union_key compute c k2).2 := by
  obtain ⟨old, v, new, hc, hnew⟩ := hInv
  unfold load_land_union_key
  cases hf : (c.find? (fun e => e.1 = k2)).map (fun e => e.2) with
  | some v2 =>
    simp only
    unfold lcMoveToEnd
    rw [hf]
    dsimp only
    rw [hc, List.eraseP_append]
    by_cases hany : old.any (fun e => decide (e.1 = k2))
    · rw [if_pos hany]
      exact ⟨old.eraseP (fun e => e.1 = k2), v, new ++ [(k2, v2)], by simp, by
        rw [List.length_append]
        simp only [List.length_cons, List.length_nil]
        omega⟩
    · rw [if_neg hany]
      rw [List.eraseP_cons_of_neg (by simpa using fun h => hk h.symm)]
      refine ⟨old, v, new.eraseP (fun e => e.1 = k2) ++ [(k2, v2)], by simp, ?_⟩
      have hsub := List.Sublist.length_le
        (List.eraseP_sublist new (p := fun e => decide (e.1 = k2)))
      rw [List.length_append]
      simp only [List.length_cons, List.length_nil]
      omega
  | none =>
    simp only
    have hshape : c ++ [(k2, compute k2)] = old ++ (k, v) :: (new ++ [(k2, compute k2)]) := by
      rw [hc, List.append_assoc, List.cons_append]
    have hnew2 : (new ++ [(k2, compute k2)]).length ≤ m + 1 := by
      rw [List.length_append]
      simp only [List.length_cons, List.length_nil]
      omega
    by_cases hlen : LAND_UNION_CACHE_MAX < (c ++ [(k2, compute k2)]).length
    · rw [if_pos hlen]
      have holdlen : 1 ≤ old.length := by
        unfold LAND_UNION_CACHE_MAX at hlen
        rw [hshape, List.length_append, List.length_cons, List.length_append] at hlen
        simp only [List.length_cons, List.length_nil] at hlen
        omega
      cases hold : old with
      | nil =>
        exfalso
        rw [hold] at holdlen
        simp at holdlen
      | cons o old2 =>
        rw [hshape, hold, List.cons_append, List.tail_cons]
        exact ⟨old2, v, new ++ [(k2, compute k2)], rfl, hnew2⟩
    · rw [if_neg hlen, hshape]
      exact ⟨old, v, new ++ [(k2, compute k2)], rfl, hnew2⟩

theorem landInv_run {V : Type} (compute : LKey → V) :
    ∀ (calls : List ((ℚ × ℚ × ℚ × ℚ) × ℚ)) (c : List (LKey × V)) (k : LKey)
      (m : Nat), LandInv k m c →
      (∀ bp ∈ calls, _bbox_cache_key bp.1 bp.2 ≠ k) →
      m + calls.length ≤ 95 →
      LandInv k (m + calls.length) (runLandCalls compute c calls)
  | [], c, k, m, hInv, _, _ => hInv
  | bp :: rest, c, k, m, hInv, hcalls, hlen => by
    have hm : m ≤ 94 := by
      simp only [List.length_cons] at hlen
      omega
    have hstep := landInv_step compute hInv hm
      (hcalls bp (List.mem_cons_self bp rest))
    have htail := landInv_run compute rest _ k (m + 1) hstep
      (fun x hx => hcalls x (List.mem_cons_of_mem bp hx))
      (by simp only [List.length_cons] at hlen; omega)
    unfold runLandCalls
    unfold load_land_union_for_bbox at htail ⊢
    rw [show m + (bp :: rest).length = m + 1 + rest.length by simp; omega]
    exact htail

theorem landInv_hit {V : Type} (compute : LKey → V) {c : List (LKey × V)}
    {k : LKey} {m : Nat} (hInv : LandInv k m c) :
    (load_land_union_key compute c k).1.2 = true := by
  obtain ⟨old, v, new, hc, _⟩ := hInv
  unfold load_land_union_key
  cases hf : (c.find? (fun e => e.1 = k)).map (fun e => e.2) with
  | some v2 => rfl
  | none =>
    exfalso
    rw [Option.map_eq_none'] at hf
    rw [List.find?_eq_none] at hf
    exact absurd (by simp : decide ((k, v).1 = k) = true)
      (by simpa using hf (k, v) (by rw [hc]; simp))

/-- C6: the land-union cache keeps at most 96 entries, its key is the tile
5-tuple of the padded bbox with the rounded pad, a hit moves the key to the
most recent end and returns hit, and a key is still a hit after at most 95
l subsequent distinct-key calls. -/
theorem c6_land_cache_lru :
    (∀ (V : Type) (compute : LKey → V) (c : List (LKey × V))
        (bbox : ℚ × ℚ × ℚ × ℚ) (pad : ℚ), c.length ≤ 96 →
        (load_land_union_for_bbox compute c bbox pad).2.length ≤ 96) ∧
    (∀ (bbox : ℚ × ℚ × ℚ × ℚ) (pad : ℚ),
        _bbox_cache_key bbox pad = specCacheKey bbox pad) ∧
    (∀ (V : Type) (compute : LKey → V) (c : List (LKey × V)) (k : LKey) (v : V),
        (c.find? (fun e => e.1 = k)).map (fun e => e.2) = some v →
        load_land_union_key compute c k = ((v, true), lcMoveToEnd c k)) ∧
    (∀ (V : Type) (compute : LKey → V) (c : List (LKey × V))
        (b0 : (ℚ × ℚ × ℚ × ℚ) × ℚ) (calls : List ((ℚ × ℚ × ℚ × ℚ) × ℚ)),
        (calls.map (fun bp => _bbox_cache_key bp.1 bp.2)).Nodup →
        _bbox_cache_key b0.1 b0.2 ∉ calls.map (fun bp => _bbox_cache_key bp.1 bp.2) →
        calls.length ≤ 95 →
        (load_land_union_for_bbox compute
            (runLandCalls compute
              (load_land_union_for_bbox compute c b0.1 b0.2).2 calls)
            b0.1 b0.2).1.2 = true) := by
  refine ⟨?_, ?_, ?_, ?_⟩
  · intro V compute c bbox pad hlen
    unfold load_land_union_for_bbox load_land_union_key
    cases hf : (c.find? (fun e => e.1 = _bbox_cache_key bbox pad)).map
        (fun e => e.2) with
    | some v =>
      simp only
      unfold lcMoveToEnd
      rw [hf]
      rw [Option.map_eq_some'] at hf
      obtain ⟨e, he, hev⟩ := hf
      have hmem := List.mem_of_find?_eq_some he
      have hpe := List.find?_some he
      rw [List.length_append, List.length_eraseP_of_mem hmem hpe]
      have hpos : 1 ≤ c.length := List.length_pos_of_mem hmem
      simp only [List.length_cons, List.length_nil]
      omega
    | none =>
      simp only
      by_cases h1 : LAND_UNION_CACHE_MAX <
          (c ++ [(_bbox_cache_key bbox pad, compute (_bbox_cache_key bbox pad))]).length
      · rw [if_pos h1]
        rw [List.length_tail, List.length_append]
        simp only [List.length_cons, List.length_nil]
        unfold LAND_UNION_CACHE_MAX at h1
        omega
      · rw [if_neg h1]
        rw [List.length_append] at h1 ⊢
        simp only [List.length_cons, List.length_nil] at h1 ⊢
        unfold LAND_UNION_CACHE_MAX at h1
        omega
  · intro bbox pad
    rfl
  · intro V compute c k v hf
    unfold load_land_union_key
    rw [hf]
  · intro V compute c b0 calls _ hnotin hlen
    have hfirst : LandInv (_bbox_cache_key b0.1 b0.2) 0
        (load_land_union_for_bbox compute c b0.1 b0.2).2 :=
      landInv_first compute c (_bbox_cache_key b0.1 b0.2)
    have hrun := landInv_run compute calls
      (load_land_union_for_bbox compute c b0.1 b0.2).2
      (_bbox_cache_key b0.1 b0.2) 0 hfirst
      (fun bp hbp hkey => hnotin (by rw [← hkey]; exact List.mem_map_of_mem _ hbp))
      (by omega)
    exact landInv_hit compute hrun

/-- Witness for C6: one call on an empty cache stays within capacity and an
immediate repeat lookup of the same bbox hits. -/
theorem c6_land_cache_lru_witness :
    (load_land_union_for_bbox (fun _ => (0 : Nat)) [] ((0 : ℚ), 0, 0, 0) 1).2.length ≤ 96 ∧
      (load_land_union_for_bbox (fun _ => (0 : Nat))
          (runLandCalls (fun _ => (0 : Nat))
            (load_land_union_for_bbox (fun _ => (0 : Nat)) [] ((0 : ℚ), 0, 0, 0) 1).2 [])
          ((0 : ℚ), 0, 0, 0) 1).1.2 = true :=
  ⟨c6_land_cache_lru.1 Nat (fun _ => 0) [] ((0 : ℚ), 0, 0, 0) 1 (by decide),
   c6_land_cache_lru.2.2.2 Nat (fun _ => 0) [] (((0 : ℚ), 0, 0, 0), 1) []
     List.nodup_nil (by simp) (by decide)⟩

/-! ### Downloader event skeleton (services/downloader.py)

The per-relation try body performs network and file effects; it is
abstracted by an oracle giving the events it emits and whether the relation
succeeded.  Payloads of stage, log, object_started, object_done and done
events are abbreviated: the claims depend only on event types and on the
overall_progress payload, which is embedded in full. -/

/-- The overall_progress event with its done, total, ok, failed payload. -/
def overallProgressEvent (done total ok failed : Nat) : JobEvent :=
  ⟨"overall_progress",
   [("done", JVal.num done), ("total", JVal.num total),
    ("ok", JVal.num ok), ("failed", JVal.num failed)]⟩

/-- Per-relation outcome oracle: the events the try body emits before
object_done, and whether the relation succeeded. -/
abbrev RelOracle := Nat → Nat → List JobEvent × Bool

/-- Embeds the main loop of download_admin_boundaries: each iteration checks
cancellation, runs the try body, emits object_done and the overall progress
snapshot.  Returns the emitted events and the final ok and failed counters,
or none when the loop returned early on cancellation. -/
def dlLoop (relResult : RelOracle) (shouldCancel : Nat → Bool) (total : Nat) :
    List Nat → Nat → Nat → Nat → List JobEvent × Option (Nat × Nat)
  | [], _, ok, failed => ([], some (ok, failed))
  | rid :: rest, idx, ok, failed =>
    if shouldCancel idx then ([⟨"done", [("cancelled", JVal.num 1)]⟩], none)
    else
      let r := relResult idx rid
      let ok2 := if r.2 then ok + 1 else ok
      let failed2 := if r.2 then failed else failed + 1
      let tail := dlLoop relResult shouldCancel total rest (idx + 1) ok2 failed2
      (⟨"object_started", [("relation_id", JVal.num rid), ("index", JVal.num idx),
          ("total", JVal.num total)]⟩ ::
        (r.1 ++ ⟨"object_done", [("relation_id", JVal.num rid)]⟩ ::
          overallProgressEvent idx total ok2 failed2 :: tail.1),
       tail.2)

/-- Embeds the event trace of download_admin_boundaries: prelude, optional
land-polygons stage, initial progress snapshot, main loop, and the epilogue
that only a non-cancelled run reaches. -/
def download_admin_boundaries_events (relResult : RelOracle)
    (shouldCancel : Nat → Bool) (landEvents : List JobEvent)
    (clip_land force_refresh_osm_source : Bool) (relation_ids : List Nat) :
    List JobEvent :=
  let total := relation_ids.length
  let loop := dlLoop relResult shouldCancel total relation_ids 1 0 0
  ⟨"stage", [("stage", JVal.str "start")]⟩ ::
  ⟨"log", [("message",
    JVal.str (if force_refresh_osm_source then "force refresh" else "reuse"))]⟩ ::
  ((if clip_land
    then ⟨"stage", [("stage", JVal.str "land_polygons.ensure")]⟩ :: landEvents
    else []) ++
   overallProgressEvent 0 total 0 0 ::
   loop.1 ++
   (match loop.2 with
    | none => []
    | some st =>
      ⟨"stage", [("stage", JVal.str "rebuild_combined")]⟩ ::
        ((if clip_land then [⟨"log", []⟩, ⟨"log", []⟩] else []) ++
          [⟨"done", [("ok", JVal.num st.1), ("failed", JVal.num st.2)]⟩])))

/-- The overall_progress filter predicate. -/
def isOv (e : JobEvent) : Bool := e.type = "overall_progress"

theorem filter_not_ov {l : List JobEvent}
    (h : ∀ e ∈ l, e.type ≠ "overall_progress") : l.filter isOv = [] := by
  induction l with
  | nil => rfl
  | cons a t ih =>
    rw [List.filter_cons_of_neg]
    · exact ih fun e he => h e (List.mem_cons_of_mem a he)
    · simpa [isOv] using h a (List.mem_cons_self a t)

theorem dlLoop_spec (relResult : RelOracle) (shouldCancel : Nat → Bool)
    (total : Nat) (hc : ∀ i, shouldCancel i = false)
    (hr : ∀ i r, ∀ e ∈ (relResult i r).1, e.type ≠ "overall_progress") :
    ∀ (ids : List Nat) (idx ok failed : Nat),
      ∃ okf failf,
        (dlLoop relResult shouldCancel total ids idx ok failed).2 = some (okf, failf) ∧
        okf + failf = ok + failed + ids.length ∧
        (((dlLoop relResult shouldCancel total ids idx ok failed).1.filter isOv).getLast? =
            some (overallProgressEvent (idx + (ids.length - 1)) total okf failf) ∨
          (ids = [] ∧
            (dlLoop relResult shouldCancel total ids idx ok failed).1.filter isOv = []))
  | [], idx, ok, failed => ⟨ok, failed, rfl, by simp, Or.inr ⟨rfl, rfl⟩⟩
  | rid :: rest, idx, ok, failed => by
    obtain ⟨okf, failf, h2, hsum, hlast⟩ :=
      dlLoop_spec relResult shouldCancel total hc hr rest (idx + 1)
        (if (relResult idx rid).2 then ok + 1 else ok)
        (if (relResult idx rid).2 then failed else failed + 1)
    refine ⟨okf, failf, ?_, ?_, ?_⟩
    · unfold dlLoop
      rw [if_neg (by rw [hc idx]; exact Bool.false_ne_true)]
      exact h2
    · rw [hsum]
      simp only [List.length_cons]
      by_cases hb : (relResult idx rid).2 <;> simp [hb] <;> omega
    · unfold dlLoop
      rw [if_neg (by rw [hc idx]; exact Bool.false_ne_true)]
      simp only
      left
      rw [List.filter_cons_of_neg (by simp [isOv])]
      rw [List.filter_append, filter_not_ov (hr idx rid)]
      rw [List.nil_append]
      rw [List.filter_cons_of_neg (by simp [isOv])]
      rw [List.filter_cons_of_pos (by simp [isOv, overallProgressEvent])]
      rcases hlast with hlast | ⟨hnil, hfilt⟩
      · rw [show (overallProgressEvent idx total
            (if (relResult idx rid).2 then ok + 1 else ok)
            (if (relResult idx rid).2 then failed else failed + 1) ::
            ((dlLoop relResult shouldCancel total rest (idx + 1)
              (if (relResult idx rid).2 then ok + 1 else ok)
              (if (relResult idx rid).2 then failed else failed + 1)).1.filter isOv)) =
          [overallProgressEvent idx total
            (if (relResult idx rid).2 then ok + 1 else ok)
            (if (relResult idx rid).2 then failed else failed + 1)] ++
            ((dlLoop relResult shouldCancel total rest (idx + 1)
              (if (relResult idx rid).2 then ok + 1 else ok)
              (if (relResult idx rid).2 then failed else failed + 1)).1.filter isOv)
          from rfl]
        rw [List.getLast?_append, hlast]
        have hrest : rest ≠ [] := by
          intro hr0
          rw [hr0] at hlast
          rw [show (dlLoop relResult shouldCancel total [] (idx + 1)
            (if (relResult idx rid).2 then ok + 1 else ok)
            (if (relResult idx rid).2 then failed else failed + 1)).1 = [] from rfl] at hlast
          simp at hlast
        have hlen : rest.length - 1 + 1 = rest.length :=
          Nat.succ_pred_eq_of_pos (List.length_pos_of_ne_nil hrest)
        rw [show idx + 1 + (rest.length - 1) = idx + ((rid :: rest).length - 1) by
          simp only [List.length_cons]
          omega]
        rfl
      · subst hnil
        have hstep : (dlLoop relResult shouldCancel total [] (idx + 1)
            (if (relResult idx rid).2 then ok + 1 else ok)
            (if (relResult idx rid).2 then failed else failed + 1)) =
            ([], some ((if (relResult idx rid).2 then ok + 1 else ok),
              (if (relResult idx rid).2 then failed else failed + 1))) := rfl
        rw [hstep] at h2
        have hok : okf = (if (relResult idx rid).2 then ok + 1 else ok) := by
          have := Option.some.inj h2
          exact (congrArg Prod.fst this).symm
        have hfail : failf = (if (relResult idx rid).2 then failed else failed + 1) := by
          have := Option.some.inj h2
          exact (congrArg Prod.snd this).symm
        rw [hstep]
        rw [hok, hfail]
        simp

/-- C7: a non-cancelled run over n relation ids ends with a final
overall_progress event whose done and total both equal n and whose ok and
failed counters sum to n. -/
theorem c7_final_overall_progress (relResult : RelOracle)
    (shouldCancel : Nat → Bool) (landEvents : List JobEvent)
    (clip_land force_refresh_osm_source : Bool) (relation_ids : List Nat)
    (hc : ∀ i, shouldCancel i = false)
    (hr : ∀ i r, ∀ e ∈ (relResult i r).1, e.type ≠ "overall_progress")
    (hl : ∀ e ∈ landEvents, e.type ≠ "overall_progress") :
    ∃ ok failed, ok + failed = relation_ids.length ∧
      ((download_admin_boundaries_events relResult shouldCancel landEvents
          clip_land force_refresh_osm_source relation_ids).filter isOv).getLast? =
        some (overallProgressEvent relation_ids.length relation_ids.length
          ok failed) := by
  obtain ⟨okf, failf, h2, hsum, hlast⟩ :=
    dlLoop_spec relResult shouldCancel relation_ids.length hc hr relation_ids 1 0 0
  refine ⟨okf, failf, by omega, ?_⟩
  unfold download_admin_boundaries_events
  simp only
  rw [List.filter_cons_of_neg (by simp [isOv])]
  rw [List.filter_cons_of_neg (by simp [isOv])]
  rw [List.filter_append]
  have hland : ((if clip_land
      then (⟨"stage", [("stage", JVal.str "land_polygons.ensure")]⟩ : JobEvent) :: landEvents
      else []).filter isOv) = [] := by
    by_cases hcl : clip_land
    · rw [if_pos hcl, List.filter_cons_of_neg (by simp [isOv])]
      exact filter_not_ov hl
    · rw [if_neg hcl]
      rfl
  rw [List.filter_append, hland, List.nil_append]
  rw [List.filter_cons_of_pos (by simp [isOv, overallProgressEvent])]
  rw [h2]
  dsimp only
  have hepi : (((⟨"stage", [("stage", JVal.str "rebuild_combined")]⟩ : JobEvent) ::
      ((if clip_land then [(⟨"log", []⟩ : JobEvent), ⟨"log", []⟩] else []) ++
        [⟨"done", [("ok", JVal.num okf), ("failed", JVal.num failf)]⟩])).filter isOv) = [] := by
    rw [List.filter_cons_of_neg (by simp [isOv])]
    rw [List.filter_append]
    have h1 : ((if clip_land then [(⟨"log", []⟩ : JobEvent), ⟨"log", []⟩] else []).filter isOv) = [] := by
      by_cases hcl : clip_land
      · rw [if_pos hcl]
        rfl
      · rw [if_neg hcl]
        rfl
    rw [h1, List.nil_append, List.filter_cons_of_neg (by simp [isOv])]
    rfl
  rw [hepi, List.append_nil]
  rcases hlast with hlast | ⟨hnil, hfilt⟩
  · have hne : relation_ids ≠ [] := by
      intro h0
      rw [h0] at hlast
      rw [show (dlLoop relResult shouldCancel ([] : List Nat).length [] 1 0 0).1 = []
        from rfl] at hlast
      simp at hlast
    rw [show ((overallProgressEvent 0 relation_ids.length 0 0) ::
        ((dlLoop relResult shouldCancel relation_ids.length relation_ids 1 0 0).1.filter isOv)) =
      [overallProgressEvent 0 relation_ids.length 0 0] ++
        ((dlLoop relResult shouldCancel relation_ids.length relation_ids 1 0 0).1.filter isOv)
      from rfl]
    rw [List.getLast?_append, hlast]
    have hlen : 1 + (relation_ids.length - 1) = relation_ids.length := by
      have := List.length_pos_of_ne_nil hne
      omega
    rw [hlen]
    rfl
  · subst hnil
    rw [hfilt]
    have hsum0 : okf + failf = 0 := by simpa using hsum
    have : okf = 0 ∧ failf = 0 := by
      constructor <;> omega
    rw [this.1, this.2]
    rfl

/-- Witness for C7: a one-relation run with a trivial oracle. -/
theorem c7_final_overall_progress_witness :
    ∃ ok failed, ok + failed = ([7] : List Nat).length ∧
      ((download_admin_boundaries_events (fun _ _ => ([], true)) (fun _ => false)
          [] false false [7]).filter isOv).getLast? =
        some (overallProgressEvent ([7] : List Nat).length ([7] : List Nat).length
          ok failed) :=
  c7_final_overall_progress (fun _ _ => ([], true)) (fun _ => false) [] false false
    [7] (fun _ => rfl) (fun _ _ e he => absurd he (List.not_mem_nil e))
    (fun e he => absurd he (List.not_mem_nil e))

/-! ### Keyword-argument acceptance (downloader.py, preview.py and their callers)

Neither download_admin_boundaries nor preview_features declares a catch-all
keyword dictionary, so a Python keyword call binds only when every supplied
keyword names a declared parameter; otherwise the call raises TypeError
before the body runs. -/

/-- The parameters of download_admin_boundaries, all keyword-only
(downloader.py lines 130 to 140). -/
def download_admin_boundaries_params : List String :=
  ["adm_name", "admin_level", "relation_ids", "relation_names", "clip_land",
   "force_refresh_osm_source", "overpass_url", "emit", "should_cancel"]

/-- The parameters of preview_features: relation_ids positional-or-keyword,
the rest keyword-only (preview.py lines 159 to 166). -/
def preview_features_params : List String :=
  ["relation_ids", "adm_name", "admin_level", "overpass_url", "timeout_sec"]

/-- The keywords JobManager._run supplies to download_admin_boundaries
(jobs.py lines 196 to 206). -/
def jobmanager_run_kwargs : List String :=
  ["adm_name", "admin_level", "relation_ids", "relation_names", "clip_land",
   "force_refresh_osm_source", "fix_antimeridian", "overpass_url", "emit",
   "should_cancel"]

/-- The keywords api_catalog_preview supplies to preview_features, with the
positional ids argument binding relation_ids (main.py lines 136 to 143). -/
def api_catalog_preview_kwargs : List String :=
  ["relation_ids", "adm_name", "admin_level", "fix_antimeridian",
   "overpass_url"]

/-- A keyword call binds exactly when every supplied keyword names a
declared parameter of the callee. -/
def callAccepted (params kwargs : List String) : Bool :=
  kwargs.all fun k => params.contains k

/-- C1: contrary to the claim, neither download_admin_boundaries nor
preview_features declares a fix_antimeridian parameter, while both callers
supply that keyword, so both calls fail to bind (Python raises TypeError)
instead of being accepted and forwarding the flag. -/
theorem c1_fix_antimeridian_rejected :
    "fix_antimeridian" ∉ download_admin_boundaries_params ∧
    "fix_antimeridian" ∉ preview_features_params ∧
    "fix_antimeridian" ∈ jobmanager_run_kwargs ∧
    "fix_antimeridian" ∈ api_catalog_preview_kwargs ∧
    callAccepted download_admin_boundaries_params jobmanager_run_kwargs = false ∧
    callAccepted preview_features_params api_catalog_preview_kwargs = false := by
  decide

end OsmBatch
